import Mathlib

/-!
Verification of the microservice-translator core control loop.

This file gives a shallow embedding, in Lean 4, of the verify-and-retry
control loop of the `project_translator` package: the retry orchestrator
(`RetryMechanism.translate_with_retry`), the build/start/test/shutdown test
executor (`TestExecutor.execute_full_test`, `TestRunner.run_tests`), the
declarative HTTP scenario executor (`RequestExecutor`), the sandboxed file
access checks (`FileOperationsTool`), and the malformed-JSON batch response
parser (`BatchTranslationProtocol.parse_malformed_json`).

Every definition is translated from the Python source.  External effects
(LLM calls, subprocesses, HTTP requests, the file system) are abstracted as
oracle functions, and effectful code is modelled by explicit state passing
plus event traces.
-/

namespace MicroTranslator

/-! ## Retry mechanism (`translation/retry_mechanism.py`)

`RetryMechanism.translate_with_retry` runs a `while attempt <= max_retries`
loop.  Each iteration performs one translation attempt; the outcome of an
attempt is either a translation-layer failure (the `success` key of the
translation result is false) or a translation success followed by a test run
whose result carries a `success` flag.  We abstract the environment as a
function from the attempt number to that outcome. -/

/-- Outcome of one loop iteration, as seen by `translate_with_retry`:
either the translation itself failed, or it succeeded and the translated
project was tested, with the given test success flag. -/
inductive AttemptOutcome where
  | transFail : AttemptOutcome
  | tested : Bool → AttemptOutcome
deriving DecidableEq

/-- Model of the `RetryAttempt` dataclass (the fields the claims mention). -/
structure RetryAttempt where
  attempt_number : Nat
  success : Bool
deriving DecidableEq

/-- The `while attempt <= self.max_retries` loop of
`RetryMechanism.translate_with_retry`, lines 95-156 of
`retry_mechanism.py`.  `attempt` is the loop counter before the `attempt += 1`
increment, `acc` is the `self.retry_attempts` list.  On a translation
failure a failed `RetryAttempt` is appended and the loop breaks if
`attempt > max_retries`, otherwise it continues; on a tested attempt the
`RetryAttempt` records the test success flag, the loop breaks with overall
success on a successful test, and otherwise breaks when attempts are
exhausted.  Returns the final `retry_attempts` history and the
`overall_success` flag. -/
def retryLoop (o : Nat → AttemptOutcome) (max_retries : Nat) :
    Nat → List RetryAttempt → List RetryAttempt × Bool :=
  fun attempt acc =>
    if _h : attempt ≤ max_retries then
      match o (attempt + 1) with
      | .transFail =>
          if max_retries < attempt + 1 then
            (acc ++ [⟨attempt + 1, false⟩], false)
          else retryLoop o max_retries (attempt + 1) (acc ++ [⟨attempt + 1, false⟩])
      | .tested s =>
          if s then (acc ++ [⟨attempt + 1, s⟩], true)
          else if max_retries < attempt + 1 then
            (acc ++ [⟨attempt + 1, s⟩], false)
          else retryLoop o max_retries (attempt + 1) (acc ++ [⟨attempt + 1, s⟩])
    else (acc, false)
  termination_by attempt _ => max_retries + 1 - attempt

/-- `translate_with_retry` starts the loop with `attempt = 0` and an empty
`self.retry_attempts` history. -/
def translate_with_retry (o : Nat → AttemptOutcome) (max_retries : Nat) :
    List RetryAttempt × Bool :=
  retryLoop o max_retries 0 []

theorem retryLoop_invariant (o : Nat → AttemptOutcome) (R : Nat) :
    ∀ (n attempt : Nat) (acc : List RetryAttempt), R + 1 - attempt ≤ n →
      (retryLoop o R attempt acc).1.length ≤ acc.length + (R + 1 - attempt) ∧
      ((∀ x ∈ acc, x.success = false) →
        ∀ x ∈ (retryLoop o R attempt acc).1.dropLast, x.success = false) := by
  intro n
  induction n with
  | zero =>
      intro attempt acc hn
      have hgt : ¬ attempt ≤ R := by omega
      rw [retryLoop]
      simp only [hgt, dite_false]
      constructor
      · simp
      · intro hacc x hx
        exact hacc x ((List.dropLast_sublist acc).mem hx)
  | succ n ih =>
      intro attempt acc hn
      by_cases hle : attempt ≤ R
      · rw [retryLoop]
        simp only [hle, dite_true]
        cases ho : o (attempt + 1) with
        | transFail =>
            by_cases hstop : R < attempt + 1
            · simp only [hstop, if_true]
              constructor
              · simp; omega
              · intro hacc x hx
                rw [List.dropLast_concat] at hx
                exact hacc x hx
            · simp only [hstop, if_false]
              have hrec := ih (attempt + 1)
                (acc ++ [(⟨attempt + 1, false⟩ : RetryAttempt)]) (by omega)
              constructor
              · refine le_trans hrec.1 ?_
                simp; omega
              · intro hacc
                refine hrec.2 ?_
                intro x hx
                rcases List.mem_append.mp hx with h' | h'
                · exact hacc x h'
                · simp at h'; rw [h']
        | tested s =>
            by_cases hs : s = true
            · subst hs
              simp only [if_true]
              constructor
              · simp; omega
              · intro hacc x hx
                rw [List.dropLast_concat] at hx
                exact hacc x hx
            · have hs' : s = false := by simpa using hs
              subst hs'
              simp only [Bool.false_eq_true, if_false]
              by_cases hstop : R < attempt + 1
              · simp only [hstop, if_true]
                constructor
                · simp; omega
                · intro hacc x hx
                  rw [List.dropLast_concat] at hx
                  exact hacc x hx
              · simp only [hstop, if_false]
                have hrec := ih (attempt + 1)
                  (acc ++ [(⟨attempt + 1, false⟩ : RetryAttempt)]) (by omega)
                constructor
                · refine le_trans hrec.1 ?_
                  simp; omega
                · intro hacc
                  refine hrec.2 ?_
                  intro x hx
                  rcases List.mem_append.mp hx with h' | h'
                  · exact hacc x h'
                  · simp at h'; rw [h']
      · rw [retryLoop]
        simp only [hle, dite_false]
        constructor
        · simp
        · intro hacc x hx
          exact hacc x ((List.dropLast_sublist acc).mem hx)

/-! ## JSON-like values and shared string utilities

`requests.Response.json()` produces Python values (dicts, lists, strings,
numbers, booleans, `None`); on parse failure the executor falls back to the
raw response text, which we represent with the string constructor.  Python
dicts are modelled as association lists in insertion order. -/

inductive Jv where
  | null : Jv
  | b : Bool → Jv
  | n : Int → Jv
  | s : String → Jv
  | arr : List Jv → Jv
  | obj : List (String × Jv) → Jv

/-- Dict lookup (first binding wins; dicts built by the model never repeat a
key). -/
def lookupStr (k : String) : List (String × Jv) → Option Jv
  | [] => none
  | (k', v) :: rest => if k' = k then some v else lookupStr k rest

/-! Python `==` on JSON-like values: dict comparison is order-insensitive
(equal key sets with `==`-equal values), list comparison is positional. -/
mutual
def pyEq : Jv → Jv → Bool
  | .null, .null => true
  | .b x, .b y => x == y
  | .n x, .n y => x == y
  | .s x, .s y => x == y
  | .arr xs, .arr ys => pyEqList xs ys
  | .obj xs, .obj ys => xs.length == ys.length && pyEqFields xs ys
  | _, _ => false
def pyEqList : List Jv → List Jv → Bool
  | [], [] => true
  | x :: xs, y :: ys => pyEq x y && pyEqList xs ys
  | _, _ => false
def pyEqFields : List (String × Jv) → List (String × Jv) → Bool
  | [], _ => true
  | (k, v) :: rest, ys =>
      (match lookupStr k ys with
       | some w => pyEq v w
       | none => false) && pyEqFields rest ys
end

/-- Python `needle in haystack` on strings: substring test. -/
def containsSub : List Char → List Char → Bool
  | pat, [] => pat.isEmpty
  | pat, x :: xs => pat.isPrefixOf (x :: xs) || containsSub pat xs

/-- Python `str.replace(pat, rep)`: replace occurrences of `pat` left to
right, without overlap.  All patterns used by the source are non-empty. -/
def replaceAll (pat rep : List Char) : List Char → List Char
  | [] => []
  | x :: xs =>
      if pat.isPrefixOf (x :: xs) then
        rep ++ replaceAll pat rep (xs.drop (pat.length - 1))
      else
        x :: replaceAll pat rep xs
  termination_by l => l.length
  decreasing_by
    · simp only [List.length_cons]
      have := List.length_drop (pat.length - 1) xs
      omega
    · simp

/-- Python `str(value)`, as applied to saved response values.  Scalars
follow Python; containers use a Python-repr-like rendering (no claim
depends on the container cases). -/
def pyStr : Jv → String
  | .null => "None"
  | .b true => "True"
  | .b false => "False"
  | .n i => toString i
  | .s st => st
  | .arr _ => "[...]"
  | .obj _ => String.mk ['\x7b', '.', '.', '.', '\x7d']

/-! ## Request executor (`core/request_executor.py`) -/

inductive HttpMethod where
  | GET | POST | PUT | DELETE | PATCH | HEAD | OPTIONS
deriving DecidableEq

/-- The response-shape discriminators of the `ResponseType` enum in
`models/test_case_models.py`. -/
inductive ResponseType where
  | array | object | stringT | number | boolean
deriving DecidableEq

/-- Model of the `TestStep` dataclass (`models/test_case_models.py`). -/
structure TestStepM where
  name : String
  method : HttpMethod
  endpoint : String
  headers : Option (List (String × String)) := none
  body : Option Jv := none
  expected_status : Nat := 200
  expected_response : Option (List (String × Jv)) := none
  expected_response_contains : Option (List String) := none
  expected_response_type : Option ResponseType := none
  expected_items : Option Nat := none
  expected_min_items : Option Nat := none
  save_response_field : Option String := none

/-- `RequestExecutor._check_response_content`: the response must be a dict,
every expected key must be present and its value `==`-equal. -/
def checkResponseContent (response_data : Jv) (expected : List (String × Jv)) : Bool :=
  match response_data with
  | .obj fields =>
      expected.all fun kv =>
        match lookupStr kv.1 fields with
        | some v => pyEq v kv.2
        | none => false
  | _ => false

/-- `RequestExecutor._check_response_contains`: key membership on dicts,
substring containment on strings, false otherwise. -/
def checkResponseContains (response_data : Jv) (expected_keys : List String) : Bool :=
  match response_data with
  | .obj fields => expected_keys.all fun k => (lookupStr k fields).isSome
  | .s st => expected_keys.all fun k => containsSub k.toList st.toList
  | _ => false

/-- `RequestExecutor._check_response_type`. -/
def checkResponseType (response_data : Jv) (expected_type : ResponseType) : Bool :=
  match expected_type with
  | .array => match response_data with | .arr _ => true | _ => false
  | .object => match response_data with | .obj _ => true | _ => false
  | _ => false

/-- `RequestExecutor._check_min_items`. -/
def checkMinItems (response_data : Jv) (min_count : Nat) : Bool :=
  match response_data with
  | .arr xs => min_count ≤ xs.length
  | _ => false

/-- `RequestExecutor._check_exact_items`. -/
def checkExactItems (response_data : Jv) (exact_count : Nat) : Bool :=
  match response_data with
  | .arr xs => xs.length == exact_count
  | _ => false

/-- The `if/elif` content-validation chain of
`RequestExecutor._validate_response` (lines 147-167): the first configured
rule, in declaration order `expected_response`, `expected_response_contains`,
`expected_response_type`, `expected_min_items`, `expected_items`, is
evaluated; with no rule configured, `content_match` stays `True`.  Returns
the `content_match` flag and the content-related error messages. -/
def contentValidation (response_data : Jv) (step : TestStepM) : Bool × List String :=
  match step.expected_response with
  | some e =>
      let m := checkResponseContent response_data e
      (m, if m then [] else ["Response content does not match expected values"])
  | none =>
    match step.expected_response_contains with
    | some ks =>
        let m := checkResponseContains response_data ks
        (m, if m then [] else ["Response does not contain expected keys"])
    | none =>
      match step.expected_response_type with
      | some t =>
          let m := checkResponseType response_data t
          (m, if m then [] else ["Response type mismatch"])
      | none =>
        match step.expected_min_items with
        | some mi =>
            let m := checkMinItems response_data mi
            (m, if m then []
                else ["Response has fewer items than expected minimum: " ++ toString mi])
        | none =>
          match step.expected_items with
          | some ei =>
              let m := checkExactItems response_data ei
              (m, if m then [] else ["Response item count mismatch: expected " ++ toString ei])
          | none => (true, [])

structure ValidationOutcome where
  success : Bool
  content_match : Bool
  errors : List String

/-- `RequestExecutor._validate_response` (lines 125-173): the status code is
checked independently, content validation runs per `contentValidation`, and
step success is the conjunction of the two. -/
def validate_response (status_code expected_status : Nat) (response_data : Jv)
    (step : TestStepM) : ValidationOutcome :=
  let status_match := status_code == expected_status
  let status_errors :=
    if status_match then []
    else ["Status code mismatch: expected " ++ toString expected_status ++
          ", got " ++ toString status_code]
  let c := contentValidation response_data step
  ⟨status_match && c.1, c.1, status_errors ++ c.2⟩

/-- Claim C4: a status-code mismatch alone forces step failure even when the
configured content validation passes; step success is exactly the
conjunction of status-code match and content match. -/
theorem status_mismatch_forces_step_failure (status : Nat) (d : Jv)
    (step : TestStepM) (hne : status ≠ step.expected_status) :
    (validate_response status step.expected_status d step).success = false ∧
      ∀ s' : Nat,
        (validate_response s' step.expected_status d step).success =
          ((s' == step.expected_status) &&
            (validate_response s' step.expected_status d step).content_match) := by
  constructor
  · simp [validate_response, hne]
  · intro s'
    simp [validate_response]

/-- A step expecting status 404 with a passing `expected_response_contains`
check, run against a 200 response: the step fails. -/
theorem status_mismatch_forces_step_failure_witness :
    let stepC4 : TestStepM :=
      { name := "get", method := HttpMethod.GET, endpoint := "/items",
        expected_status := 404,
        expected_response_contains := some ["name"] }
    let d := Jv.obj [("name", Jv.s "x")]
    (200 ≠ stepC4.expected_status) ∧
      (validate_response 200 stepC4.expected_status d stepC4).content_match = true ∧
      (validate_response 200 stepC4.expected_status d stepC4).success = false := by
  refine ⟨by decide, rfl, ?_⟩
  exact (status_mismatch_forces_step_failure 200 _ _ (by decide)).1

/-- Claim C5: when several expected-response fields are configured, exactly
the first one present in the order `expected_response`,
`expected_response_contains`, `expected_response_type`,
`expected_min_items`, `expected_items` determines the content match; the
remaining configured rules have no effect (the equations hold for every
step regardless of its other validation fields). -/
theorem first_validation_rule_wins (status : Nat) (d : Jv) (step : TestStepM) :
    (∀ e, step.expected_response = some e →
      (validate_response status step.expected_status d step).content_match =
        checkResponseContent d e) ∧
    (∀ ks, step.expected_response = none →
      step.expected_response_contains = some ks →
      (validate_response status step.expected_status d step).content_match =
        checkResponseContains d ks) ∧
    (∀ t, step.expected_response = none →
      step.expected_response_contains = none →
      step.expected_response_type = some t →
      (validate_response status step.expected_status d step).content_match =
        checkResponseType d t) ∧
    (∀ mi, step.expected_response = none →
      step.expected_response_contains = none →
      step.expected_response_type = none →
      step.expected_min_items = some mi →
      (validate_response status step.expected_status d step).content_match =
        checkMinItems d mi) ∧
    (∀ ei, step.expected_response = none →
      step.expected_response_contains = none →
      step.expected_response_type = none →
      step.expected_min_items = none →
      step.expected_items = some ei →
      (validate_response status step.expected_status d step).content_match =
        checkExactItems d ei) := by
  refine ⟨?_, ?_, ?_, ?_, ?_⟩
  · intro e h1
    simp [validate_response, contentValidation, h1]
  · intro ks h1 h2
    simp [validate_response, contentValidation, h1, h2]
  · intro t h1 h2 h3
    simp [validate_response, contentValidation, h1, h2, h3]
  · intro mi h1 h2 h3 h4
    simp [validate_response, contentValidation, h1, h2, h3, h4]
  · intro ei h1 h2 h3 h4 h5
    simp [validate_response, contentValidation, h1, h2, h3, h4, h5]

/-- A step configuring both `expected_response` (which passes) and
`expected_items := 99` (which would fail): only the first rule is
evaluated, so the content match is true. -/
theorem first_validation_rule_wins_witness :
    let stepC5 : TestStepM :=
      { name := "get", method := HttpMethod.GET, endpoint := "/items",
        expected_response := some [("name", Jv.s "x")],
        expected_items := some 99 }
    let d := Jv.obj [("name", Jv.s "x"), ("id", Jv.n 1)]
    stepC5.expected_response = some [("name", Jv.s "x")] ∧
      (validate_response 200 stepC5.expected_status d stepC5).content_match =
        checkResponseContent d [("name", Jv.s "x")] ∧
      checkResponseContent d [("name", Jv.s "x")] = true ∧
      checkExactItems d 99 = false := by
  refine ⟨rfl, ?_, rfl, rfl⟩
  exact (first_validation_rule_wins 200 _ _).1 _ rfl

/-! ## Placeholder substitution and request execution
(`core/request_executor.py`, lines 28-123 and 175-189)

`SavedData` is the Python dict threaded through the whole run; insertion
order is significant because `_replace_placeholders` iterates
`saved_data.items()`. -/

def SavedData := List (String × Jv)

/-- Python `saved_data[key] = value`: update an existing binding in place
(dicts keep the original insertion position) or append a new one. -/
def setKey : List (String × Jv) → String → Jv → List (String × Jv)
  | [], k, v => [(k, v)]
  | (k', v') :: rest, k, v =>
      if k' = k then (k', v) :: rest else (k', v') :: setKey rest k v

/-- The placeholder text for a saved key: `"\x7bsaved_" + key + "\x7d"`. -/
def tokenOf (k : String) : List Char :=
  '\x7b' :: ("saved_".toList ++ (k.toList ++ ['\x7d']))

/-- `RequestExecutor._replace_placeholders` (lines 175-180): for each
`(key, value)` of `saved_data`, in insertion order, textually replace every
occurrence of the key's placeholder with `str(value)`. -/
def replacePlaceholders (saved : List (String × Jv)) (text : List Char) : List Char :=
  saved.foldl (fun t kv => replaceAll (tokenOf kv.1) (pyStr kv.2).toList t) text

/-- `RequestExecutor._replace_placeholders_dict` (lines 182-189): recurse
into dict values and replace in strings; every other value — including
lists — is returned unchanged. -/
def replacePlaceholdersDict (saved : List (String × Jv)) : Jv → Jv
  | .obj fields =>
      .obj (fields.attach.map fun kv =>
        (kv.1.1, replacePlaceholdersDict saved kv.1.2))
  | .s st => .s (String.mk (replacePlaceholders saved st.toList))
  | v => v
  termination_by v => sizeOf v
  decreasing_by
    rcases kv with ⟨⟨k, v⟩, hmem⟩
    have hm := List.sizeOf_lt_of_mem hmem
    simp at hm ⊢
    omega

/-- One HTTP response, after the `response.json()` / `response.text`
parsing step of `execute_request`. -/
structure HttpResp where
  status_code : Nat
  data : Jv

/-- Outcome of `_make_request`: `failed` models both an unsupported method
(`None` return) and a raised `requests.RequestException`. -/
inductive ReqOutcome where
  | failed : ReqOutcome
  | ok : HttpResp → ReqOutcome

/-- The result dictionary built by `execute_request` (only the keys the
claims use). -/
structure StepResult where
  success : Bool
  status_code : Option Nat
  content_match : Option Bool
  validation_errors : List String

/-- The part of `RequestExecutor.execute_request` that runs after a
response arrives (lines 63-87): parse and validate the response, then — if
`save_response_field` is truthy, validation succeeded, and the body is a
dict — store `response_data.get("id")` under the configured key. -/
def execute_request_response (step : TestStepM) (saved : List (String × Jv))
    (r : HttpResp) : StepResult × List (String × Jv) :=
  let vr := validate_response r.status_code step.expected_status r.data step
  let saved' :=
    match step.save_response_field with
    | some k =>
        if k = "" then saved
        else if vr.success then
          match r.data with
          | .obj fields => setKey saved k ((lookupStr "id" fields).getD Jv.null)
          | _ => saved
        else saved
    | none => saved
  (⟨vr.success, some r.status_code, some vr.content_match, vr.errors⟩, saved')

/-- `RequestExecutor.execute_request` (lines 28-94): substitute placeholders
in the endpoint and the body, dispatch through the HTTP oracle, and process
the response; a failed dispatch produces a failure result and leaves
`saved_data` untouched. -/
def execute_request (oracle : HttpMethod → List Char → Option Jv → ReqOutcome)
    (base_url : String) (step : TestStepM) (saved : List (String × Jv)) :
    StepResult × List (String × Jv) :=
  let endpoint := replacePlaceholders saved step.endpoint.toList
  let body := step.body.map (replacePlaceholdersDict saved)
  let url := base_url.toList ++ endpoint
  match oracle step.method url body with
  | .failed => (⟨false, none, none, []⟩, saved)
  | .ok r => execute_request_response step saved r

/-- Claim C6: for a successfully validated step with a (non-empty)
`save_response_field` whose response body is an object containing an `id`
field, the value stored under the configured key is the response's `id`
value — never the value of the field named by the key; and nothing is
saved when validation failed or the body is not an object. -/
theorem save_response_field_stores_id (step : TestStepM)
    (saved : List (String × Jv)) (r : HttpResp) (k : String)
    (fields : List (String × Jv)) (idv : Jv)
    (hk : step.save_response_field = some k) (hk0 : k ≠ "")
    (hobj : r.data = Jv.obj fields)
    (hid : lookupStr "id" fields = some idv)
    (hsucc : (validate_response r.status_code step.expected_status r.data
      step).success = true) :
    (execute_request_response step saved r).2 = setKey saved k idv ∧
      ∀ (step' : TestStepM) (saved' : List (String × Jv)) (r' : HttpResp),
        ((validate_response r'.status_code step'.expected_status r'.data
            step').success = false ∨ ∀ fs, r'.data ≠ Jv.obj fs) →
        (execute_request_response step' saved' r').2 = saved' := by
  constructor
  · have h1 := hsucc
    rw [hobj] at h1
    simp only [execute_request_response, hk, hobj]
    simp [hk0, h1, hid]
  · intro step' saved' r' hfail
    simp only [execute_request_response]
    cases hsf : step'.save_response_field with
    | none => rfl
    | some k' =>
        by_cases hk' : k' = ""
        · simp [hk']
        · simp only [hk', if_false]
          rcases hfail with hf | hf
          · simp [hf]
          · cases hv : (validate_response r'.status_code step'.expected_status
              r'.data step').success
            · simp
            · cases hd : r'.data with
              | obj fs => exact absurd hd (hf fs)
              | null => simp [hv]
              | b x => simp [hv]
              | n x => simp [hv]
              | s x => simp [hv]
              | arr xs => simp [hv]

/-- A create step saving under key `item1` (claim C6 witness input). -/
def stepC6 : TestStepM :=
  { name := "create", method := HttpMethod.POST, endpoint := "/items",
    expected_status := 200, save_response_field := some "item1" }

/-- Response for the claim C6 witness: carries both `id = 5` and a decoy
field literally named `item1`. -/
def respC6 : HttpResp :=
  ⟨200, Jv.obj [("id", Jv.n 5), ("item1", Jv.s "decoy")]⟩

/-- A successful create step saving under key `item1`: the response carries
both `id = 5` and a field literally named `item1` with a different value;
the saved value is the response's `id`. -/
theorem save_response_field_stores_id_witness :
    stepC6.save_response_field = some "item1" ∧ "item1" ≠ "" ∧
      respC6.data = Jv.obj [("id", Jv.n 5), ("item1", Jv.s "decoy")] ∧
      lookupStr "id" [("id", Jv.n 5), ("item1", Jv.s "decoy")] = some (Jv.n 5) ∧
      (validate_response respC6.status_code stepC6.expected_status respC6.data
        stepC6).success = true ∧
      (execute_request_response stepC6 [] respC6).2 = setKey [] "item1" (Jv.n 5) := by
  refine ⟨rfl, by decide, rfl, rfl, rfl, ?_⟩
  exact (save_response_field_stores_id stepC6 [] respC6 "item1"
    [("id", Jv.n 5), ("item1", Jv.s "decoy")] (Jv.n 5) rfl (by decide)
    rfl rfl rfl).1

/-! ## Properties of placeholder substitution (claim C7)

The sequential, per-key `str.replace` loop of `_replace_placeholders` is
analysed against a reference description: a text that interleaves
brace-free segments with placeholder tokens is mapped to the same
interleaving with every token of a known key replaced by the string form of
its saved value and every unknown token left literal. -/

/-- Both brace characters are absent. -/
def braceFreeB (l : List Char) : Bool :=
  l.all fun c => !(c == '\x7b') && !(c == '\x7d')

/-- A text made of alternating segments and placeholder tokens, ending in a
final segment. -/
def weave : List (List Char × String) → List Char → List Char
  | [], tail => tail
  | (seg, k) :: rest, tail => seg ++ (tokenOf k ++ weave rest tail)

/-- What one placeholder token should become: the string form of the last
value saved under the key, or the literal token for an unknown key. -/
def resolveTok (saved : List (String × Jv)) (k : String) : List Char :=
  match lookupStr k saved with
  | some v => (pyStr v).toList
  | none => tokenOf k

/-- The reference substitution result on an interleaved text. -/
def weaveResult (saved : List (String × Jv)) :
    List (List Char × String) → List Char → List Char
  | [], tail => tail
  | (seg, k) :: rest, tail => seg ++ (resolveTok saved k ++ weaveResult saved rest tail)

theorem braceFreeB_spec {l : List Char} (h : braceFreeB l = true) :
    '\x7b' ∉ l ∧ '\x7d' ∉ l := by
  constructor <;> intro hm <;>
    · have := List.all_eq_true.mp h _ hm
      simp at this

theorem replaceAll_nil (pat rep : List Char) : replaceAll pat rep [] = [] := by
  rw [replaceAll]

theorem replaceAll_id_of_not_contains (pat rep : List Char) :
    ∀ l, containsSub pat l = false → replaceAll pat rep l = l := by
  intro l
  induction l with
  | nil => intro _; rw [replaceAll]
  | cons x xs ih =>
      intro h
      rw [containsSub, Bool.or_eq_false_iff] at h
      rw [replaceAll, h.1]
      simp only [Bool.false_eq_true, if_false]
      rw [ih h.2]

theorem replacePlaceholders_nil (saved : List (String × Jv)) :
    replacePlaceholders saved [] = [] := by
  induction saved with
  | nil => rfl
  | cons kv rest ih =>
      simp only [replacePlaceholders, List.foldl_cons] at ih ⊢
      rw [replaceAll_nil]
      exact ih

/-- The identity half of claim C7: a text containing no placeholder token of
any saved key passes through substitution unchanged. -/
theorem replacePlaceholders_id_of_no_tokens (saved : List (String × Jv))
    (text : List Char)
    (h : ∀ kv ∈ saved, containsSub (tokenOf kv.1) text = false) :
    replacePlaceholders saved text = text := by
  induction saved with
  | nil => rfl
  | cons kv rest ih =>
      simp only [replacePlaceholders, List.foldl_cons] at ih ⊢
      rw [replaceAll_id_of_not_contains _ _ _ (h kv (List.mem_cons_self _ _))]
      exact ih fun kv' h' => h kv' (List.mem_cons_of_mem _ h')

theorem isPrefixOf_false_of_head_ne {x : Char} {pat' xs : List Char}
    (hx : x ≠ '\x7b') : ('\x7b' :: pat').isPrefixOf (x :: xs) = false := by
  simp [List.isPrefixOf, Ne.symm hx]

theorem replaceAll_skip_seg (pat' rep : List Char) :
    ∀ (a b : List Char), '\x7b' ∉ a →
      replaceAll ('\x7b' :: pat') rep (a ++ b) =
        a ++ replaceAll ('\x7b' :: pat') rep b := by
  intro a
  induction a with
  | nil => intro b _; simp
  | cons x a' ih =>
      intro b ha
      have hx : x ≠ '\x7b' := by
        intro h; exact ha (h ▸ List.mem_cons_self _ _)
      rw [List.cons_append, replaceAll, isPrefixOf_false_of_head_ne hx]
      simp only [Bool.false_eq_true, if_false]
      rw [ih b fun hm => ha (List.mem_cons_of_mem _ hm)]
      simp

theorem replacePlaceholders_skip_seg (saved : List (String × Jv)) :
    ∀ (a b : List Char), '\x7b' ∉ a →
      replacePlaceholders saved (a ++ b) = a ++ replacePlaceholders saved b := by
  induction saved with
  | nil => intro a b _; rfl
  | cons kv rest ih =>
      intro a b ha
      simp only [replacePlaceholders, List.foldl_cons] at ih ⊢
      rw [show tokenOf kv.1 = '\x7b' :: ("saved_".toList ++ (kv.1.toList ++ ['\x7d'])) from rfl]
      rw [replaceAll_skip_seg _ _ a b ha]
      exact ih a _ ha

/-- The fixed leading part shared by all placeholder tokens. -/
def tokPre : List Char := '\x7b' :: "saved_".toList

theorem tokenOf_eq_pre (k : String) :
    tokenOf k = tokPre ++ (k.toList ++ ['\x7d']) := by
  simp [tokenOf, tokPre]

theorem string_toList_inj {s t : String} (h : s.toList = t.toList) : s = t := by
  cases s; cases t; simp [String.toList] at h; rw [h]

/-- Closing-brace determinacy: two brace-free words followed by a closing
brace can only align as prefixes when they are equal. -/
theorem closeBrace_eq :
    ∀ (a b t : List Char), '\x7d' ∉ a → '\x7d' ∉ b →
      (a ++ ['\x7d']) <+: (b ++ '\x7d' :: t) → a = b := by
  intro a
  induction a with
  | nil =>
      intro b t _ hb hp
      cases b with
      | nil => rfl
      | cons c b' =>
          rw [List.nil_append, List.cons_append, List.cons_prefix_cons] at hp
          exact absurd hp.1.symm (fun h => hb (h ▸ List.mem_cons_self _ _))
  | cons x a' ih =>
      intro b t ha hb hp
      cases b with
      | nil =>
          rw [List.cons_append, List.nil_append, List.cons_prefix_cons] at hp
          exact absurd hp.1 (fun h => ha (h ▸ List.mem_cons_self _ _))
      | cons c b' =>
          rw [List.cons_append, List.cons_append, List.cons_prefix_cons] at hp
          rw [hp.1, ih b' t (fun h => ha (List.mem_cons_of_mem _ h))
            (fun h => hb (List.mem_cons_of_mem _ h)) hp.2]

/-- A placeholder token of one key is never a prefix of the token of a
different key followed by anything (keys brace-free). -/
theorem tokenOf_ne_not_prefix {k₀ k : String} (hne : k₀ ≠ k)
    (h₀ : '\x7d' ∉ k₀.toList) (h₁ : '\x7d' ∉ k.toList) (b : List Char) :
    (tokenOf k₀).isPrefixOf (tokenOf k ++ b) = false := by
  by_contra h
  rw [Bool.not_eq_false, List.isPrefixOf_iff_prefix] at h
  rw [tokenOf_eq_pre, tokenOf_eq_pre, List.append_assoc] at h
  have h2 := (List.prefix_append_right_inj tokPre).mp h
  rw [List.append_assoc, List.singleton_append] at h2
  exact hne (string_toList_inj (closeBrace_eq _ _ _ h₀ h₁ h2))

theorem replaceAll_token_match (k : String) (rep b : List Char) :
    replaceAll (tokenOf k) rep (tokenOf k ++ b) =
      rep ++ replaceAll (tokenOf k) rep b := by
  rw [show tokenOf k ++ b =
    '\x7b' :: (("saved_".toList ++ (k.toList ++ ['\x7d'])) ++ b) from by
      simp [tokenOf]]
  rw [replaceAll]
  have hpre : (tokenOf k).isPrefixOf
      ('\x7b' :: (("saved_".toList ++ (k.toList ++ ['\x7d'])) ++ b)) = true := by
    rw [List.isPrefixOf_iff_prefix]
    exact ⟨b, by simp [tokenOf]⟩
  rw [hpre]
  simp only [if_true]
  congr 1
  have hlen : (tokenOf k).length - 1 =
      ("saved_".toList ++ (k.toList ++ ['\x7d'])).length := by
    simp [tokenOf]
  rw [hlen, List.drop_left]

theorem replaceAll_token_skip {k₀ k : String} (hne : k₀ ≠ k)
    (h₀ : '\x7d' ∉ k₀.toList) (h₁ : braceFreeB k.toList = true)
    (rep b : List Char) :
    replaceAll (tokenOf k₀) rep (tokenOf k ++ b) =
      tokenOf k ++ replaceAll (tokenOf k₀) rep b := by
  obtain ⟨hk1, hk2⟩ := braceFreeB_spec h₁
  have hnp := tokenOf_ne_not_prefix hne h₀ hk2 b
  rw [show tokenOf k ++ b =
    '\x7b' :: (("saved_".toList ++ (k.toList ++ ['\x7d'])) ++ b) from by
      simp [tokenOf]] at hnp ⊢
  rw [show tokenOf k₀ =
    '\x7b' :: ("saved_".toList ++ (k₀.toList ++ ['\x7d'])) from rfl] at hnp ⊢
  rw [replaceAll, hnp]
  simp only [Bool.false_eq_true, if_false]
  have hin : '\x7b' ∉ ("saved_".toList ++ (k.toList ++ ['\x7d'])) := by
    intro hm
    rcases List.mem_append.mp hm with h' | h'
    · revert h'; decide
    · rcases List.mem_append.mp h' with h'' | h''
      · exact hk1 h''
      · revert h''; decide
  rw [replaceAll_skip_seg _ _ _ _ hin]
  simp [tokenOf]

/-- Substituting over a text that starts with a placeholder token: the token
resolves to the saved value of its key (processed keys replace it, later
keys leave the inserted brace-free value alone) or stays literal for an
unknown key. -/
theorem replacePlaceholders_token :
    ∀ (saved : List (String × Jv)),
      (∀ kv ∈ saved, braceFreeB kv.1.toList = true ∧
        braceFreeB (pyStr kv.2).toList = true) →
      ∀ (k : String), braceFreeB k.toList = true → ∀ (b : List Char),
        replacePlaceholders saved (tokenOf k ++ b) =
          resolveTok saved k ++ replacePlaceholders saved b := by
  intro saved
  induction saved with
  | nil => intro _ k _ b; simp [replacePlaceholders, resolveTok, lookupStr]
  | cons kv rest ih =>
      intro hsaved k hk b
      obtain ⟨hkey, hval⟩ := hsaved kv (List.mem_cons_self _ _)
      have hrest : ∀ kv' ∈ rest, braceFreeB kv'.1.toList = true ∧
          braceFreeB (pyStr kv'.2).toList = true :=
        fun kv' h' => hsaved kv' (List.mem_cons_of_mem _ h')
      rcases kv with ⟨k₀, v₀⟩
      simp only [replacePlaceholders, List.foldl_cons] at ih ⊢
      by_cases he : k₀ = k
      · subst he
        rw [replaceAll_token_match]
        have hskip := replacePlaceholders_skip_seg rest ((pyStr v₀).toList)
          (replaceAll (tokenOf k₀) ((pyStr v₀).toList) b)
          (braceFreeB_spec hval).1
        simp only [replacePlaceholders] at hskip
        rw [hskip]
        simp [resolveTok, lookupStr]
      · rw [replaceAll_token_skip he (braceFreeB_spec hkey).2 hk]
        rw [ih hrest k hk (replaceAll (tokenOf k₀) ((pyStr v₀).toList) b)]
        have : resolveTok ((k₀, v₀) :: rest) k = resolveTok rest k := by
          simp [resolveTok, lookupStr, he]
        rw [this]

/-- Substitution on an interleaving of brace-free segments and placeholder
tokens produces the reference result. -/
theorem replacePlaceholders_weave :
    ∀ (pieces : List (List Char × String)) (saved : List (String × Jv))
      (tail : List Char),
      (∀ kv ∈ saved, braceFreeB kv.1.toList = true ∧
        braceFreeB (pyStr kv.2).toList = true) →
      (∀ p ∈ pieces, '\x7b' ∉ p.1 ∧ braceFreeB p.2.toList = true) →
      '\x7b' ∉ tail →
      replacePlaceholders saved (weave pieces tail) =
        weaveResult saved pieces tail := by
  intro pieces
  induction pieces with
  | nil =>
      intro saved tail hs _ ht
      have := replacePlaceholders_skip_seg saved tail [] ht
      simpa [weave, weaveResult, replacePlaceholders_nil] using this
  | cons p rest ih =>
      intro saved tail hs hp ht
      rcases p with ⟨seg, k⟩
      obtain ⟨hseg, hk⟩ := hp (seg, k) (List.mem_cons_self _ _)
      simp only [weave, weaveResult]
      rw [replacePlaceholders_skip_seg saved seg _ hseg]
      rw [replacePlaceholders_token saved hs k hk _]
      rw [ih saved tail hs (fun p h => hp p (List.mem_cons_of_mem _ h)) ht]

/-- Saved data refuting claim C7 as stated: the value saved under `a` is
itself the placeholder text of `b`. -/
def savedC7 : List (String × Jv) :=
  [("a", Jv.s (String.mk (tokenOf "b"))), ("b", Jv.s "1")]

/-- Claim C7 as stated is false on the code: placeholder replacement is
per-key sequential, so with `a` saved as the text `\x7bsaved_b\x7d` and `b`
saved as `1`, substituting the single token `\x7bsaved_a\x7d` yields `1`,
not the last value saved under `a`. -/
theorem placeholder_last_value_counterexample :
    lookupStr "a" savedC7 = some (Jv.s (String.mk (tokenOf "b"))) ∧
      replacePlaceholders savedC7 (tokenOf "a") = ['1'] ∧
      replacePlaceholders savedC7 (tokenOf "a") ≠
        (pyStr (Jv.s (String.mk (tokenOf "b")))).toList := by
  have h1 : replacePlaceholders savedC7 (tokenOf "a") = ['1'] := by
    simp only [savedC7, replacePlaceholders, List.foldl_cons, List.foldl_nil]
    rw [show (pyStr (Jv.s (String.mk (tokenOf "b")))).toList = tokenOf "b" from rfl]
    have e1 : replaceAll (tokenOf "a") (tokenOf "b") (tokenOf "a") = tokenOf "b" := by
      have := replaceAll_token_match "a" (tokenOf "b") []
      simpa [replaceAll_nil] using this
    rw [e1]
    rw [show (pyStr (Jv.s "1")).toList = ['1'] from rfl]
    have e2 := replaceAll_token_match "b" ['1'] []
    simpa [replaceAll_nil] using e2
  refine ⟨rfl, h1, ?_⟩
  rw [h1]
  decide

/-- Claim C7 (amended): substitution is the identity on any text containing
no placeholder token of a saved key; on a text interleaving brace-free
segments with placeholder tokens — when keys and the string forms of saved
values are brace-free — every token of a saved key is replaced by the
string form of the last value saved under that key and every token of an
unknown key is left as literal text, both in the endpoint string and in the
string values reached by the body recursion; the body recursion descends
only through dict values, replaces inside strings, and leaves every other
value, including lists, unchanged. -/
theorem placeholder_substitution_amended
    (saved : List (String × Jv)) (text tail : List Char)
    (pieces : List (List Char × String))
    (hid : ∀ kv ∈ saved, containsSub (tokenOf kv.1) text = false)
    (hsaved : ∀ kv ∈ saved, braceFreeB kv.1.toList = true ∧
      braceFreeB (pyStr kv.2).toList = true)
    (hpieces : ∀ p ∈ pieces, '\x7b' ∉ p.1 ∧ braceFreeB p.2.toList = true)
    (htail : '\x7b' ∉ tail) :
    replacePlaceholders saved text = text ∧
      replacePlaceholders saved (weave pieces tail) =
        weaveResult saved pieces tail ∧
      (∀ xs, replacePlaceholdersDict saved (Jv.arr xs) = Jv.arr xs) ∧
      (∀ st, replacePlaceholdersDict saved (Jv.s st) =
        Jv.s (String.mk (replacePlaceholders saved st.toList))) := by
  refine ⟨replacePlaceholders_id_of_no_tokens saved text hid,
    replacePlaceholders_weave pieces saved tail hsaved hpieces htail, ?_, ?_⟩
  · intro xs
    rw [replacePlaceholdersDict]
    · exact fun fields h => Jv.noConfusion h
    · exact fun st h => Jv.noConfusion h
  · intro st
    rw [replacePlaceholdersDict]

/-- Saved data for the claim C7 witness. -/
def savedW7 : List (String × Jv) := [("item1", Jv.n 5)]

/-- Interleaved endpoint for the claim C7 witness: a known token and an
unknown one. -/
def piecesW7 : List (List Char × String) :=
  [("/items/".toList, "item1"), ("/x/".toList, "nokey")]

/-- Concrete run of the amended claim: `\x7bsaved_item1\x7d` resolves to
`5`, `\x7bsaved_nokey\x7d` stays literal, and token-free text "/items" is
unchanged. -/
theorem placeholder_substitution_amended_witness :
    (∀ kv ∈ savedW7, containsSub (tokenOf kv.1) "/items".toList = false) ∧
      (∀ kv ∈ savedW7, braceFreeB kv.1.toList = true ∧
        braceFreeB (pyStr kv.2).toList = true) ∧
      (∀ p ∈ piecesW7, '\x7b' ∉ p.1 ∧ braceFreeB p.2.toList = true) ∧
      ('\x7b' ∉ ([] : List Char)) ∧
      (replacePlaceholders savedW7 "/items".toList = "/items".toList ∧
        replacePlaceholders savedW7 (weave piecesW7 []) =
          weaveResult savedW7 piecesW7 [] ∧
        (∀ xs, replacePlaceholdersDict savedW7 (Jv.arr xs) = Jv.arr xs) ∧
        (∀ st, replacePlaceholdersDict savedW7 (Jv.s st) =
          Jv.s (String.mk (replacePlaceholders savedW7 st.toList)))) :=
  ⟨by decide, by decide, by decide, by decide,
    placeholder_substitution_amended savedW7 "/items".toList [] piecesW7
      (by decide) (by decide) (by decide) (by decide)⟩

/-! ## Scenario execution and SavedData threading
(`core/test_runner.py`, lines 88-167 and 216-249)

`run_tests` creates one `global_saved_data = {}` dict before the scenario
loop and passes it to every `run_scenario` call; `execute_request` mutates
it in place.  The model threads the dict explicitly. -/

/-- The step loop of `TestRunner.run_scenario` (lines 116-155): execute the
steps in order, threading `saved_data` through `execute_request`. -/
def runSteps (oracle : HttpMethod → List Char → Option Jv → ReqOutcome)
    (base_url : String) :
    List TestStepM → List (String × Jv) → List StepResult × List (String × Jv)
  | [], saved => ([], saved)
  | st :: rest, saved =>
      let r := execute_request oracle base_url st saved
      let next := runSteps oracle base_url rest r.2
      (r.1 :: next.1, next.2)

/-- `TestRunner.run_scenario`: a scenario succeeds iff every step does;
steps keep executing after a failure. -/
def run_scenario (oracle : HttpMethod → List Char → Option Jv → ReqOutcome)
    (base_url : String) (steps : List TestStepM)
    (saved : List (String × Jv)) :
    (Bool × List StepResult) × List (String × Jv) :=
  let r := runSteps oracle base_url steps saved
  ((r.1.all (·.success), r.1), r.2)

/-- The scenario loop of `TestRunner.run_tests` (lines 216-242): one shared
`global_saved_data` map threads through all scenarios, in order, and is
never reset. -/
def runScenarioList (oracle : HttpMethod → List Char → Option Jv → ReqOutcome)
    (base_url : String) :
    List (List TestStepM) → List (String × Jv) → List Bool × List (String × Jv)
  | [], saved => ([], saved)
  | sc :: rest, saved =>
      let r := run_scenario oracle base_url sc saved
      let next := runScenarioList oracle base_url rest r.2
      (r.1.1 :: next.1, next.2)

/-- The saved-data map as it stands when scenario `j` (0-based) is about to
run: the result of threading the single initially-empty map through the
first `j` scenarios. -/
def savedStateAfter (oracle : HttpMethod → List Char → Option Jv → ReqOutcome)
    (base_url : String) (scs : List (List TestStepM)) (j : Nat) :
    List (String × Jv) :=
  (runScenarioList oracle base_url (scs.take j) []).2

theorem lookupStr_setKey (k k' : String) (v : Jv) :
    ∀ m, lookupStr k (setKey m k' v) =
      if k' = k then some v else lookupStr k m := by
  intro m
  induction m with
  | nil => simp [setKey, lookupStr]
  | cons kv rest ih =>
      rcases kv with ⟨k₀, v₀⟩
      by_cases h : k₀ = k'
      · subst h
        simp [setKey, lookupStr]
        by_cases h2 : k₀ = k <;> simp [h2]
      · simp only [setKey, h, if_false]
        by_cases h2 : k₀ = k
        · subst h2
          have : ¬ k' = k₀ := fun hh => h hh.symm
          simp [lookupStr, this]
        · simp [lookupStr, h2, ih]

theorem execute_request_preserves_key
    (oracle : HttpMethod → List Char → Option Jv → ReqOutcome)
    (base_url : String) (st : TestStepM) (saved : List (String × Jv))
    (k : String) (v : Jv) (hst : st.save_response_field ≠ some k)
    (h : lookupStr k saved = some v) :
    lookupStr k (execute_request oracle base_url st saved).2 = some v := by
  simp only [execute_request]
  cases oracle st.method
    (base_url.toList ++ replacePlaceholders saved st.endpoint.toList)
    (st.body.map (replacePlaceholdersDict saved)) with
  | failed => exact h
  | ok r =>
      simp only [execute_request_response]
      cases hsf : st.save_response_field with
      | none => exact h
      | some k' =>
          have hk' : k' ≠ k := fun hh => hst (hsf.trans (congrArg some hh))
          by_cases h0 : k' = ""
          · simp [h0, h]
          · simp only [h0, if_false]
            cases (validate_response r.status_code st.expected_status r.data
              st).success
            · simp [h]
            · cases r.data <;> simp [lookupStr_setKey, hk', h]

theorem execute_request_keeps_key
    (oracle : HttpMethod → List Char → Option Jv → ReqOutcome)
    (base_url : String) (st : TestStepM) (saved : List (String × Jv))
    (k : String) (h : (lookupStr k saved).isSome) :
    (lookupStr k (execute_request oracle base_url st saved).2).isSome := by
  simp only [execute_request]
  cases oracle st.method
    (base_url.toList ++ replacePlaceholders saved st.endpoint.toList)
    (st.body.map (replacePlaceholdersDict saved)) with
  | failed => exact h
  | ok r =>
      simp only [execute_request_response]
      cases hsf : st.save_response_field with
      | none => exact h
      | some k' =>
          by_cases h0 : k' = ""
          · simp [h0, h]
          · simp only [h0, if_false]
            cases (validate_response r.status_code st.expected_status r.data
              st).success
            · simp [h]
            · rw [if_pos rfl]
              cases r.data with
              | obj fields =>
                  rw [lookupStr_setKey]
                  by_cases hk : k' = k <;> simp [hk, h]
              | null => exact h
              | b x => exact h
              | n x => exact h
              | s x => exact h
              | arr xs => exact h

theorem runSteps_preserves_key
    (oracle : HttpMethod → List Char → Option Jv → ReqOutcome)
    (base_url : String) (k : String) (v : Jv) :
    ∀ (steps : List TestStepM) (saved : List (String × Jv)),
      (∀ st ∈ steps, st.save_response_field ≠ some k) →
      lookupStr k saved = some v →
      lookupStr k (runSteps oracle base_url steps saved).2 = some v := by
  intro steps
  induction steps with
  | nil => intro saved _ h; exact h
  | cons st rest ih =>
      intro saved hnw h
      simp only [runSteps]
      exact ih _ (fun st' h' => hnw st' (List.mem_cons_of_mem _ h'))
        (execute_request_preserves_key oracle base_url st saved k v
          (hnw st (List.mem_cons_self _ _)) h)

theorem runSteps_keeps_key
    (oracle : HttpMethod → List Char → Option Jv → ReqOutcome)
    (base_url : String) (k : String) :
    ∀ (steps : List TestStepM) (saved : List (String × Jv)),
      (lookupStr k saved).isSome →
      (lookupStr k (runSteps oracle base_url steps saved).2).isSome := by
  intro steps
  induction steps with
  | nil => intro saved h; exact h
  | cons st rest ih =>
      intro saved h
      simp only [runSteps]
      exact ih _ (execute_request_keeps_key oracle base_url st saved k h)

theorem runScenarioList_append
    (oracle : HttpMethod → List Char → Option Jv → ReqOutcome)
    (base_url : String) :
    ∀ (a b : List (List TestStepM)) (saved : List (String × Jv)),
      (runScenarioList oracle base_url (a ++ b) saved).2 =
        (runScenarioList oracle base_url b
          (runScenarioList oracle base_url a saved).2).2 := by
  intro a
  induction a with
  | nil => intro b saved; rfl
  | cons sc rest ih =>
      intro b saved
      simp only [List.cons_append, runScenarioList]
      exact ih b _

theorem savedStateAfter_succ
    (oracle : HttpMethod → List Char → Option Jv → ReqOutcome)
    (base_url : String) (scs : List (List TestStepM)) (m : Nat) :
    savedStateAfter oracle base_url scs (m + 1) =
      if _h : m < scs.length then
        (run_scenario oracle base_url (scs.getD m [])
          (savedStateAfter oracle base_url scs m)).2
      else savedStateAfter oracle base_url scs m := by
  by_cases h : m < scs.length
  · simp only [h, dite_true]
    have htake : scs.take (m + 1) = scs.take m ++ [scs.getD m []] := by
      rw [List.take_succ]
      congr 1
      rw [List.getElem?_eq_getElem h]
      simp [List.getD, List.getElem?_eq_getElem h]
    simp only [savedStateAfter, htake, runScenarioList_append]
    simp [runScenarioList]
  · simp only [h, dite_false]
    have h1 : scs.take (m + 1) = scs := List.take_of_length_le (by omega)
    have h2 : scs.take m = scs := List.take_of_length_le (by omega)
    simp [savedStateAfter, h1, h2]

theorem savedState_keeps_key
    (oracle : HttpMethod → List Char → Option Jv → ReqOutcome)
    (base_url : String) (scs : List (List TestStepM)) (k : String)
    (j j' : Nat) (hj : j ≤ j')
    (h : (lookupStr k (savedStateAfter oracle base_url scs j)).isSome) :
    (lookupStr k (savedStateAfter oracle base_url scs j')).isSome := by
  induction j', hj using Nat.le_induction with
  | base => exact h
  | succ m hm ih =>
      rw [savedStateAfter_succ]
      by_cases hlt : m < scs.length
      · simp only [hlt, dite_true]
        exact runSteps_keeps_key oracle base_url k _ _ ih
      · simp only [hlt, dite_false]
        exact ih

/-- Claim C8: SavedData is one shared map threaded across all scenarios of
a run and never reset: a value saved during the first `i` scenarios is
still visible to placeholder substitution when any later scenario `j` runs
(unchanged as long as no intervening step writes the same key), and a key
once present stays present for the rest of the run. -/
theorem saved_data_shared_across_scenarios
    (oracle : HttpMethod → List Char → Option Jv → ReqOutcome)
    (base_url : String) (scs : List (List TestStepM)) (i j : Nat)
    (k : String) (v : Jv) (hij : i ≤ j)
    (hv : lookupStr k (savedStateAfter oracle base_url scs i) = some v)
    (hnw : ∀ m, i ≤ m → m < j →
      ∀ st ∈ scs.getD m [], st.save_response_field ≠ some k) :
    lookupStr k (savedStateAfter oracle base_url scs j) = some v ∧
      ∀ j', j ≤ j' →
        (lookupStr k (savedStateAfter oracle base_url scs j')).isSome := by
  have hmain : lookupStr k (savedStateAfter oracle base_url scs j) = some v := by
    induction j, hij using Nat.le_induction with
    | base => exact hv
    | succ m hm ih =>
        have ihv := ih (fun m' h1 h2 => hnw m' h1 (by omega))
        rw [savedStateAfter_succ]
        by_cases hlt : m < scs.length
        · simp only [hlt, dite_true]
          exact runSteps_preserves_key oracle base_url k v _ _
            (hnw m hm (by omega)) ihv
        · simp only [hlt, dite_false]
          exact ihv
  refine ⟨hmain, fun j' hj' => ?_⟩
  exact savedState_keeps_key oracle base_url scs k j j' hj'
    (by rw [hmain]; rfl)

/-- HTTP oracle for the claim C8 witness: `POST` answers with an object
carrying `id = 7`; `GET` answers with a plain object. -/
def oracleW8 : HttpMethod → List Char → Option Jv → ReqOutcome
  | HttpMethod.POST, _, _ => ReqOutcome.ok ⟨200, Jv.obj [("id", Jv.n 7), ("name", Jv.s "x")]⟩
  | HttpMethod.GET, _, _ => ReqOutcome.ok ⟨200, Jv.obj [("name", Jv.s "x")]⟩
  | _, _, _ => ReqOutcome.failed

/-- Two scenarios: the first saves the created id under `item1`, the second
references it. -/
def scsW8 : List (List TestStepM) :=
  [[{ name := "create", method := HttpMethod.POST, endpoint := "/items",
      expected_status := 200, save_response_field := some "item1" }],
   [{ name := "get", method := HttpMethod.GET,
      endpoint := "/items/" ++ String.mk (tokenOf "item1"),
      expected_status := 200,
      expected_response_contains := some ["name"] }]]

/-- The id saved by scenario 1 is visible when scenario 2 runs. -/
theorem saved_data_shared_across_scenarios_witness :
    (1 : Nat) ≤ 2 ∧
      lookupStr "item1" (savedStateAfter oracleW8 "http://localhost:8000" scsW8 1) =
        some (Jv.n 7) ∧
      (∀ m, 1 ≤ m → m < 2 →
        ∀ st ∈ scsW8.getD m [], st.save_response_field ≠ some "item1") ∧
      (lookupStr "item1" (savedStateAfter oracleW8 "http://localhost:8000" scsW8 2) =
          some (Jv.n 7) ∧
        ∀ j', 2 ≤ j' →
          (lookupStr "item1"
            (savedStateAfter oracleW8 "http://localhost:8000" scsW8 j')).isSome) := by
  refine ⟨by omega, rfl, ?_, ?_⟩
  · intro m h1 h2
    have hm : m = 1 := by omega
    subst hm
    decide
  · exact saved_data_shared_across_scenarios oracleW8 "http://localhost:8000"
      scsW8 1 2 "item1" (Jv.n 7) (by omega) rfl
      (by
        intro m h1 h2
        have hm : m = 1 := by omega
        subst hm
        decide)

/-! ## Sandboxed file access (`translation/tools/file_operations.py`)

Absolute paths are modelled as segment lists (so `["a", "b"]` stands for
`/a/b`).  `get_file` computes `full_path = source_path / file_path.lstrip('/')`
and refuses the call unless
`str(full_path.resolve()).startswith(str(source_path.resolve()))`
(lines 49-58); `write_file` performs the identical check against the output
root (lines 111-123).  `Path.resolve()` is modelled lexically: `..` pops a
segment, `.` and empty segments disappear. -/

/-- Split a character list on `/`, accumulating the current segment. -/
def splitSegsAux : List Char → List Char → List String
  | [], cur => [String.mk cur.reverse]
  | '/' :: rest, cur => String.mk cur.reverse :: splitSegsAux rest []
  | c :: rest, cur => splitSegsAux rest (c :: cur)

/-- Split a relative path on `/`, dropping empty segments (this also covers
the `lstrip('/')` in the source). -/
def splitPath (rel : String) : List String :=
  (splitSegsAux rel.toList []).filter (· ≠ "")

/-- Lexical `Path.resolve()` on an absolute segment list. -/
def resolveSegs (segs : List String) : List String :=
  segs.foldl
    (fun acc s =>
      if s = ".." then acc.dropLast
      else if s = "." ∨ s = "" then acc
      else acc ++ [s])
    []

/-- `str()` of an absolute path. -/
def renderPath (segs : List String) : List Char :=
  '/' :: (String.intercalate "/" segs).toList

/-- The security check shared by `get_file` and `write_file`:
`str(full_path.resolve()).startswith(str(root.resolve()))`. -/
def pathWithinCheck (root : List String) (file_path : String) : Bool :=
  (renderPath (resolveSegs root)).isPrefixOf
    (renderPath (resolveSegs (root ++ splitPath file_path)))

/-- `FileOperationsTool.get_file`: the resolved path that the call goes on
to open, or `none` when the call is refused with the access-denied error. -/
def get_file_access (source_root : List String) (file_path : String) :
    Option (List String) :=
  if pathWithinCheck source_root file_path then
    some (resolveSegs (source_root ++ splitPath file_path))
  else none

/-- `FileOperationsTool.write_file`: the resolved path that the call goes on
to create and write, or `none` when refused. -/
def write_file_access (output_root : List String) (file_path : String) :
    Option (List String) :=
  if pathWithinCheck output_root file_path then
    some (resolveSegs (output_root ++ splitPath file_path))
  else none

/-- A path lies inside a root when the root's segments are a prefix of its
segments. -/
def insideRoot (root path : List String) : Prop := root <+: path

/-- Claim C9 fails on the code: the `startswith` check has no separator, so
from root `/a/b` the relative path `../bc/secret` resolves to
`/a/bc/secret` — outside the root — yet `"/a/bc/secret"` starts with
`"/a/b"`, and both `get_file` and `write_file` perform the operation
instead of refusing it. -/
theorem path_check_admits_sibling_escape :
    pathWithinCheck ["a", "b"] "../bc/secret" = true ∧
      get_file_access ["a", "b"] "../bc/secret" = some ["a", "bc", "secret"] ∧
      write_file_access ["a", "b"] "../bc/secret" = some ["a", "bc", "secret"] ∧
      ¬ insideRoot ["a", "b"] ["a", "bc", "secret"] ∧
      get_file_access ["a", "b"] "../../etc/passwd" = none := by
  refine ⟨by decide, by decide, by decide, ?_, by decide⟩
  intro h
  rcases h with ⟨t, ht⟩
  simp at ht

/-! ## Test executor (`translation/test_executor.py`)

`TestExecutor.execute_full_test` runs validate / build / start / test /
shutdown phases.  The external world (file-system checks, the `./start.sh`
subprocess, the health poll, the scenario runner, `./shutdown.sh`) is
abstracted as an oracle of phase outcomes; the model returns the
`TestExecutionResult` together with the trace of phase invocations, in
order. -/

/-- One externally visible phase invocation of `TestExecutor`.
`build_project` and `start_service` both run the same external script
(`["./start.sh"]`, lines 118 and 159 of `test_executor.py`), so both events
carry the script they invoke. -/
inductive ExecEvent where
  | validateSetup : ExecEvent
  | buildPhase : String → ExecEvent
  | startPhase : String → ExecEvent
  | testsPhase : ExecEvent
  | shutdownPhase : String → ExecEvent
deriving DecidableEq

/-- Phase outcomes supplied by the environment: whether `validate_setup`
passes, whether the build invocation of `./start.sh` exits 0, whether the
start invocation of `./start.sh` exits 0 and the health poll succeeds, and
whether the scenario test run reports success (only consulted when the
service started). -/
structure ExecOracle where
  validOk : Bool
  buildOk : Bool
  serviceOk : Bool
  testsOk : Bool

/-- The fields of the `TestExecutionResult` dataclass used by the claims. -/
structure TestExecutionResult where
  success : Bool
  build_success : Bool
  service_startup_success : Bool
  test_success : Bool
deriving DecidableEq

/-- `TestExecutor.execute_full_test` (lines 277-332 of `test_executor.py`):
validate the setup and return early on failure; otherwise build, then start
the service unconditionally, run the tests only if the service started,
always invoke `shutdown_service`, and report
`success = build ∧ service ∧ tests`. -/
def execute_full_test (o : ExecOracle) : TestExecutionResult × List ExecEvent :=
  if o.validOk = false then
    (⟨false, false, false, false⟩, [ExecEvent.validateSetup])
  else
    let build_success := o.buildOk
    let service_success := o.serviceOk
    let test_success := if service_success then o.testsOk else false
    let events :=
      [ExecEvent.validateSetup, ExecEvent.buildPhase "./start.sh",
        ExecEvent.startPhase "./start.sh"] ++
      (if service_success then [ExecEvent.testsPhase] else []) ++
      [ExecEvent.shutdownPhase "./shutdown.sh"]
    (⟨build_success && service_success && test_success,
      build_success, service_success, test_success⟩, events)

/-! ## Test runner (`core/test_runner.py`)

`TestRunner.run_tests` validates paths, loads the suite, starts the service,
waits for readiness, then runs the scenarios inside a `try/except/finally`
whose `finally` block always shuts the service down.  Scenario execution is
abstracted as a function from the scenario index to either a raised
exception or a scenario success flag, so that the cleanup guarantee can be
stated even for runs in which scenario execution raises. -/

inductive RunnerEvent where
  | validatePaths : RunnerEvent
  | loadCases : RunnerEvent
  | startService : RunnerEvent
  | waitService : RunnerEvent
  | runScenarioEv : Nat → RunnerEvent
  | shutdownService : RunnerEvent
deriving DecidableEq

/-- Environment of one `TestRunner.run_tests` call: path validation result,
test-case loading result, number of scenarios in the suite, whether
`start_service` and `wait_for_service` succeed, and the outcome of each
scenario execution (`Except.error` models an exception raised by
`run_scenario` and caught by the `except` clause at line 243). -/
structure RunnerOracle where
  pathsOk : Bool
  loadOk : Bool
  numScenarios : Nat
  startOk : Bool
  waitOk : Bool
  scenarioRun : Nat → Except Unit Bool

/-- The scenario loop of `run_tests` (lines 220-242): run scenarios `1..n`
in order; if one raises, the surrounding `except` stops the loop.  Returns
the trace of `run_scenario` invocations. -/
def runnerLoop (o : RunnerOracle) : Nat → List RunnerEvent
  | 0 => []
  | n + 1 =>
      let i := o.numScenarios - n
      match o.scenarioRun i with
      | .error _ => [RunnerEvent.runScenarioEv i]
      | .ok _ => RunnerEvent.runScenarioEv i :: runnerLoop o n

/-- `TestRunner.run_tests` (lines 169-261 of `test_runner.py`), as an event
trace.  Early returns: path validation failure, load failure, and an empty
scenario list all return before `start_service`; a `start_service` failure
returns without shutdown; a `wait_for_service` failure shuts down and
returns; otherwise the scenario loop runs inside `try/finally` and
`shutdown_service` is always invoked afterwards. -/
def run_tests_events (o : RunnerOracle) : List RunnerEvent :=
  if o.pathsOk = false then [RunnerEvent.validatePaths]
  else if o.loadOk = false then [RunnerEvent.validatePaths, RunnerEvent.loadCases]
  else if o.numScenarios = 0 then [RunnerEvent.validatePaths, RunnerEvent.loadCases]
  else if o.startOk = false then
    [RunnerEvent.validatePaths, RunnerEvent.loadCases, RunnerEvent.startService]
  else if o.waitOk = false then
    [RunnerEvent.validatePaths, RunnerEvent.loadCases, RunnerEvent.startService,
      RunnerEvent.waitService, RunnerEvent.shutdownService]
  else
    [RunnerEvent.validatePaths, RunnerEvent.loadCases, RunnerEvent.startService,
      RunnerEvent.waitService] ++
    runnerLoop o o.numScenarios ++ [RunnerEvent.shutdownService]

/-- Claim C2: in `TestExecutor.execute_full_test`, if setup validation
passes (so the build/start phases are entered), `shutdown_service` is
invoked before the method returns, regardless of the build, start and test
outcomes; and `TestRunner.run_tests` invokes `shutdown_service` whenever
`start_service` succeeded, even if scenario execution raises an
exception. -/
theorem shutdown_always_follows_start (o : ExecOracle) (r : RunnerOracle)
    (hv : o.validOk = true)
    (hstart : RunnerEvent.startService ∈ run_tests_events r)
    (hok : r.startOk = true) :
    ExecEvent.shutdownPhase "./shutdown.sh" ∈ (execute_full_test o).2 ∧
      RunnerEvent.shutdownService ∈ run_tests_events r := by
  constructor
  · simp only [execute_full_test, hv]
    by_cases hs : o.serviceOk <;> simp [hs]
  · simp only [run_tests_events] at hstart ⊢
    by_cases hp : r.pathsOk = false
    · simp [hp] at hstart
    · simp only [hp, if_false] at hstart ⊢
      by_cases hl : r.loadOk = false
      · simp [hl] at hstart
      · simp only [hl, if_false] at hstart ⊢
        by_cases hz : r.numScenarios = 0
        · simp [hz] at hstart
        · simp only [hz, if_false] at hstart ⊢
          simp only [hok, Bool.true_eq_false, if_false] at hstart ⊢
          by_cases hw : r.waitOk = false <;> simp [hw]

/-- A run in which validation, build, start and wait all succeed but the
first scenario raises an exception: both components still emit the shutdown
event. -/
theorem shutdown_always_follows_start_witness :
    let o : ExecOracle := ⟨true, false, true, false⟩
    let r : RunnerOracle :=
      ⟨true, true, 1, true, true, fun _ => Except.error ()⟩
    o.validOk = true ∧ RunnerEvent.startService ∈ run_tests_events r ∧
      r.startOk = true ∧
      (ExecEvent.shutdownPhase "./shutdown.sh" ∈ (execute_full_test o).2 ∧
        RunnerEvent.shutdownService ∈ run_tests_events r) := by
  refine ⟨rfl, ?_, rfl, ?_⟩
  · decide
  · exact shutdown_always_follows_start _ _ rfl (by decide) rfl

/-- Claim C10: in `execute_full_test`, once setup validation passes,
`start_service` is invoked unconditionally even when `build_project`
reported failure, and both phases invoke the same `./start.sh` script; only
the test phase is guarded, and only by service-startup success. -/
theorem start_unconditional_after_build (o : ExecOracle)
    (hv : o.validOk = true) :
    ExecEvent.buildPhase "./start.sh" ∈ (execute_full_test o).2 ∧
      ExecEvent.startPhase "./start.sh" ∈ (execute_full_test o).2 ∧
      (ExecEvent.testsPhase ∈ (execute_full_test o).2 ↔ o.serviceOk = true) := by
  simp only [execute_full_test, hv]
  by_cases hs : o.serviceOk <;> simp [hs]

/-- A failed build with a successful service start: the start phase still
runs `./start.sh` and the test phase runs. -/
theorem start_unconditional_after_build_witness :
    let o : ExecOracle := ⟨true, false, true, true⟩
    o.validOk = true ∧
      (ExecEvent.buildPhase "./start.sh" ∈ (execute_full_test o).2 ∧
        ExecEvent.startPhase "./start.sh" ∈ (execute_full_test o).2 ∧
        (ExecEvent.testsPhase ∈ (execute_full_test o).2 ↔
          (⟨true, false, true, true⟩ : ExecOracle).serviceOk = true)) :=
  ⟨rfl, start_unconditional_after_build ⟨true, false, true, true⟩ rfl⟩

/-- Claim C1: for `max_retries = R`, a run of
`RetryMechanism.translate_with_retry` appends at most `R + 1` entries to the
`retry_attempts` history, and every history entry other than the last one is
a failed attempt — the loop stops at the first attempt whose test result has
`success = true` and produces no further attempts after a successful one. -/
theorem retry_at_most_R_plus_one_attempts_and_stops_on_success
    (o : Nat → AttemptOutcome) (R : Nat) :
    (translate_with_retry o R).1.length ≤ R + 1 ∧
      ∀ x ∈ (translate_with_retry o R).1.dropLast, x.success = false := by
  have h := retryLoop_invariant o R (R + 1) 0 [] (by omega)
  constructor
  · simpa [translate_with_retry] using h.1
  · exact h.2 (by simp)

/-! ## Malformed-JSON batch parser
(`translation/protocols/batch.py`, lines 270-337)

`parse_malformed_json` extracts the `translated_files` array with three
regex scans over the whole response text:

* `content_starts`: the match start of every occurrence of
  `"content":\s*(\x60|")`;
* `content_ends`: the match start of every occurrence of
  `(\x60|")\s*,\s*"original_path"`;
* `paths`: every capture of `"path":\s*"([^"]+)"`.

The i-th path is paired with the text between the end of the i-th start
match and the i-th end match, and the content is unescaped by
`process_file_content`.  The three regexes are simple enough to admit a
direct deterministic translation: greedy `\s*` never needs backtracking
because no whitespace character can begin the token that must follow it,
and greedy `[^"]+` never needs backtracking because the run cannot contain
the closing quote.  `re.finditer`/`re.findall` scan left to right without
overlap, advancing past each match. -/

/-- ASCII `\s` of Python's `re` module. -/
def isWs (c : Char) : Bool :=
  c == ' ' || c == '\t' || c == '\n' || c == '\r' || c == '\x0b' || c == '\x0c'

/-- The literal `"content":`. -/
def litContent : List Char := ['"', 'c', 'o', 'n', 't', 'e', 'n', 't', '"', ':']

/-- The literal `"path":`. -/
def litPath : List Char := ['"', 'p', 'a', 't', 'h', '"', ':']

/-- The literal `"original_path"`. -/
def litOrig : List Char :=
  ['"', 'o', 'r', 'i', 'g', 'i', 'n', 'a', 'l', '_', 'p', 'a', 't', 'h', '"']

/-- `\s*(\x60|")`: length of the whitespace run plus the delimiter. -/
def wsDelimLen : List Char → Option Nat
  | [] => none
  | c :: cs =>
      if isWs c then (wsDelimLen cs).map (· + 1)
      else if c == '`' || c == '"' then some 1
      else none

/-- Match of `"content":\s*(\x60|")` at the head of `l` (full match
length). -/
def matchContentStart (l : List Char) : Option Nat :=
  if litContent.isPrefixOf l then
    (wsDelimLen (l.drop litContent.length)).map (litContent.length + ·)
  else none

/-- Consume a whitespace run, returning its length and the remainder. -/
def wsLen : List Char → Nat × List Char
  | [] => (0, [])
  | c :: cs => if isWs c then let r := wsLen cs; (r.1 + 1, r.2) else (0, c :: cs)

/-- Match of `\s*,\s*"original_path"` (the part of the end pattern after
the delimiter). -/
def endAfterDelim (l : List Char) : Option Nat :=
  match (wsLen l).2 with
  | ',' :: l2 =>
      if litOrig.isPrefixOf (wsLen l2).2 then
        some ((wsLen l).1 + 1 + (wsLen l2).1 + litOrig.length)
      else none
  | _ => none

/-- Match of `(\x60|")\s*,\s*"original_path"` at the head of `l`. -/
def matchContentEnd (l : List Char) : Option Nat :=
  match l with
  | [] => none
  | c :: cs => if c == '`' || c == '"' then (endAfterDelim cs).map (· + 1) else none

/-- Match of `\s*"([^"]+)"` (the part of the path pattern after the
literal): match length and the capture. -/
def pathAfterLit (l : List Char) : Option (Nat × List Char) :=
  match (wsLen l).2 with
  | '"' :: l2 =>
      if (l2.takeWhile (· ≠ '"')).isEmpty then none
      else
        match l2.drop (l2.takeWhile (· ≠ '"')).length with
        | '"' :: _ =>
            some ((wsLen l).1 + 1 + (l2.takeWhile (· ≠ '"')).length + 1,
              l2.takeWhile (· ≠ '"'))
        | _ => none
  | _ => none

/-- Match of `"path":\s*"([^"]+)"` at the head of `l`. -/
def matchPath (l : List Char) : Option (Nat × List Char) :=
  if litPath.isPrefixOf l then
    (pathAfterLit (l.drop litPath.length)).map fun r => (litPath.length + r.1, r.2)
  else none

/-- `re.finditer`: the list of match start positions, scanning left to
right and resuming after each match. -/
def scanPositions (m : List Char → Option Nat) : List Char → Nat → List Nat
  | [], _ => []
  | c :: cs, pos =>
      match m (c :: cs) with
      | some len => pos :: scanPositions m (cs.drop (len - 1)) (pos + len)
      | none => scanPositions m cs (pos + 1)
  termination_by l _ => l.length
  decreasing_by
    · simp only [List.length_cons]
      have := List.length_drop (len - 1) cs
      omega
    · simp

/-- `re.findall` of the path pattern: the list of captures. -/
def scanPathCaps : List Char → List (List Char)
  | [] => []
  | c :: cs =>
      match matchPath (c :: cs) with
      | some r => r.2 :: scanPathCaps (cs.drop (r.1 - 1))
      | none => scanPathCaps cs
  termination_by l => l.length
  decreasing_by
    · simp only [List.length_cons, List.length_drop]
      omega
    · simp

/-- Python slicing `json_string[s:e]`. -/
def sliceStr (json : List Char) (s e : Nat) : List Char := (json.take e).drop s

/-- `BatchTranslationProtocol.process_file_content` (line 337): the five
`str.replace` calls, in order `\n`, `\"`, `\x27`, `\x60`, `\\`. -/
def process_file_content (content : List Char) : List Char :=
  replaceAll ['\\', '\\'] ['\\']
    (replaceAll ['\\', '`'] ['`']
      (replaceAll ['\\', '\x27'] ['\x27']
        (replaceAll ['\\', '"'] ['"']
          (replaceAll ['\\', 'n'] ['\n'] content))))

/-- `BatchTranslationProtocol.parse_malformed_json` (lines 270-333),
restricted to the `translated_files` list it builds: pair the i-th path
capture with the slice between the end of the i-th content-start match and
the i-th content-end match, processing the content; indices for which a
start or end position is missing are skipped. -/
def parse_malformed_json (json : List Char) : List (List Char × List Char) :=
  let content_starts := scanPositions matchContentStart json 0
  let content_ends := scanPositions matchContentEnd json 0
  let paths := scanPathCaps json
  (List.range paths.length).filterMap fun i =>
    if i < content_starts.length ∧ i < content_ends.length then
      let sp := content_starts.getD i 0
      let len := (matchContentStart (json.drop sp)).getD 0
      some (paths.getD i [],
        process_file_content
          (sliceStr json (sp + len) (content_ends.getD i 0)))
    else none

/-! ### Well-formed batch responses

A response text made of `N` file blocks in the shape the LLM is instructed
to produce, with backtick-delimited content fields.  The block contents may
contain arbitrary text — embedded quotes, backticks, escapes — as long as
they do not contain the three key literals that drive the scans; paths are
ordinary path strings (no quotes, backticks, commas or whitespace). -/

structure FileBlock where
  path : String
  content : List Char
  orig : String

def segH : List Char :=
  ['\x7b', '"', 't', 'r', 'a', 'n', 's', 'l', 'a', 't', 'e', 'd', '_',
   'f', 'i', 'l', 'e', 's', '"', ':', ' ', '[']

def segA : List Char := ['\x7b', '"', 'p', 'a', 't', 'h', '"', ':', ' ', '"']

def segB : List Char :=
  ['"', ',', ' ', '"', 'c', 'o', 'n', 't', 'e', 'n', 't', '"', ':', ' ', '`']

def segC : List Char :=
  ['`', ',', ' ', '"', 'o', 'r', 'i', 'g', 'i', 'n', 'a', 'l', '_',
   'p', 'a', 't', 'h', '"', ':', ' ', '"']

def segD : List Char := ['"', '\x7d', ',', ' ']

def segF : List Char := [']', '\x7d']

/-- One file block as rendered in the response text. -/
def blockText (b : FileBlock) : List Char :=
  segA ++ (b.path.toList ++ (segB ++ (b.content ++ (segC ++ (b.orig.toList ++ segD)))))

def bodyText : List FileBlock → List Char
  | [] => []
  | b :: bs => blockText b ++ bodyText bs

/-- The whole response text for a block list. -/
def mkInput (bs : List FileBlock) : List Char := segH ++ (bodyText bs ++ segF)

/-- A path-like name: non-empty, no quotes, backticks, commas or
whitespace. -/
def goodName (s : String) : Bool :=
  !s.toList.isEmpty &&
    s.toList.all fun c => !(c == '"') && !(c == '`') && !(c == ',') && !(isWs c)

/-- Content free of the three scan-driving literals. -/
def goodContent (c : List Char) : Bool :=
  !containsSub litContent c && !containsSub litPath c && !containsSub litOrig c

def goodBlock (b : FileBlock) : Bool :=
  goodName b.path && goodName b.orig && goodContent b.content

/-- Length of one rendered block. -/
def blockLen (b : FileBlock) : Nat :=
  50 + b.path.toList.length + b.content.length + b.orig.toList.length

theorem blockText_length (b : FileBlock) : (blockText b).length = blockLen b := by
  simp [blockText, blockLen, segA, segB, segC, segD]
  omega

/-! ### Generic facts about substring containment and prefixes -/

theorem containsSub_of_drop (pat : List Char) :
    ∀ (l : List Char) (i : Nat), pat <+: l.drop i → containsSub pat l = true := by
  intro l
  induction l with
  | nil =>
      intro i h
      rw [List.drop_nil] at h
      rw [List.prefix_nil] at h
      subst h
      rfl
  | cons x xs ih =>
      intro i h
      cases i with
      | zero =>
          rw [List.drop_zero] at h
          rw [containsSub, List.isPrefixOf_iff_prefix.mpr h]
          rfl
      | succ j =>
          rw [List.drop_succ_cons] at h
          rw [containsSub, ih j h]
          simp

theorem not_prefix_drop_of_not_contains {pat l : List Char}
    (h : containsSub pat l = false) (i : Nat) : ¬ pat <+: l.drop i := by
  intro hp
  rw [containsSub_of_drop pat l i hp] at h
  cases h

/-- A prefix of `u ++ y :: t` either stays inside `u` or reaches the
boundary element `y` at index `u.length`. -/
theorem prefix_split (P u : List Char) (y : Char) (t : List Char)
    (h : P <+: (u ++ y :: t)) :
    P <+: u ∨ ∃ (hl : u.length < P.length), P.get ⟨u.length, hl⟩ = y := by
  rcases le_or_lt P.length u.length with hle | hlt
  · left
    have := List.prefix_iff_eq_take.mp h
    rw [List.take_append_of_le_length hle] at this
    rw [this]
    exact List.take_prefix _ _
  · right
    refine ⟨hlt, ?_⟩
    have hb : u.length < (u ++ y :: t).length := by simp
    have hy : (u ++ y :: t)[u.length] = y := by
      rw [List.getElem_append_right (Nat.le_refl _)]
      simp
    have he := h.getElem hlt
    exact he.trans hy

theorem prefix_split_mem (P u : List Char) (y : Char) (t : List Char)
    (h : P <+: (u ++ y :: t)) : P <+: u ∨ y ∈ P := by
  rcases prefix_split P u y t h with h' | ⟨hl, hg⟩
  · exact Or.inl h'
  · have hg2 : P[u.length] = y := hg
    exact Or.inr (hg2 ▸ List.getElem_mem hl)

/-- `lit_not_prefix_quoted`: a literal of the shape `"pre":` (a quote, a
quote-free word `pre`, a quote, then `post`) is not a prefix of a quoted
value `"v"` followed by text that does not continue like `post`. -/
theorem lit_not_prefix_quoted (pre post v rest : List Char) (xc : Char)
    (hpre : '"' ∉ pre) (hpost : post.head? = some xc) (hv : '"' ∉ v)
    (hrest : rest.head? ≠ some xc) :
    ¬ (('"' :: (pre ++ ('"' :: post))) <+: ('"' :: (v ++ ('"' :: rest)))) := by
  intro h
  rw [List.cons_prefix_cons] at h
  have h2 := h.2
  rcases Nat.lt_trichotomy pre.length v.length with hlt | heq | hgt
  · -- the quote of the literal lands inside the quote-free value
    have hplt : pre.length < (pre ++ ('"' :: post)).length := by simp
    have he := h2.getElem hplt
    have hq : (pre ++ ('"' :: post))[pre.length] = '"' := by
      rw [List.getElem_append_right (Nat.le_refl _)]
      simp
    rw [hq] at he
    rw [List.getElem_append_left hlt] at he
    exact hv (he ▸ List.getElem_mem hlt)
  · -- aligned: compare the character after the closing quote
    cases rest with
    | nil =>
        have hlen := h2.length_le
        simp at hlen
        cases hpost' : post with
        | nil => rw [hpost'] at hpost; cases hpost
        | cons pc pr =>
            rw [hpost'] at hlen
            simp at hlen
            omega
    | cons rc rr =>
        cases hpost' : post with
        | nil => rw [hpost'] at hpost; cases hpost
        | cons pc pr =>
            rw [hpost'] at hpost
            simp at hpost
            have hidx : pre.length + 1 < (pre ++ ('"' :: post)).length := by
              rw [hpost']; simp
            have he := h2.getElem hidx
            have hL : (pre ++ ('"' :: post))[pre.length + 1] = pc := by
              rw [List.getElem_append_right (by omega)]
              simp [hpost']
            have hRlt : pre.length + 1 < (v ++ ('"' :: (rc :: rr))).length := by
              simp; omega
            have hR : (v ++ ('"' :: (rc :: rr)))[pre.length + 1] = rc := by
              rw [List.getElem_append_right (by omega)]
              have h1 : pre.length + 1 - v.length = 1 := by omega
              simp [h1]
            rw [hL, hR] at he
            apply hrest
            rw [← he, hpost]
            rfl
  · -- the quote of the value lands inside the quote-free literal word
    have hvlt : v.length < (pre ++ ('"' :: post)).length := by simp; omega
    have he := h2.getElem hvlt
    have hbv : v.length < (v ++ ('"' :: rest)).length := by simp
    have hq : (v ++ ('"' :: rest))[v.length] = '"' := by
      rw [List.getElem_append_right (Nat.le_refl _)]
      simp
    rw [List.getElem_append_left hgt] at he
    rw [hq] at he
    exact hpre (he.symm ▸ List.getElem_mem hgt)

/-! ### Structure of the three matchers -/

theorem wsLen_decomp : ∀ l : List Char,
    ∃ w, l = w ++ (wsLen l).2 ∧ (∀ x ∈ w, isWs x = true) ∧
      w.length = (wsLen l).1 := by
  intro l
  induction l with
  | nil => exact ⟨[], rfl, by simp, rfl⟩
  | cons c cs ih =>
      by_cases hc : isWs c = true
      · obtain ⟨w, hw1, hw2, hw3⟩ := ih
        refine ⟨c :: w, ?_, ?_, ?_⟩
        · rw [wsLen, hc]
          simp only [if_true]
          rw [List.cons_append, ← hw1]
        · intro x hx
          rcases List.mem_cons.mp hx with h' | h'
          · rw [h']; exact hc
          · exact hw2 x h'
        · rw [wsLen, hc]
          simp only [if_true, List.length_cons, hw3]
      · refine ⟨[], ?_, by simp, ?_⟩
        · rw [wsLen]
          simp [hc]
        · rw [wsLen]
          simp [hc]

theorem endAfterDelim_decomp {l : List Char} {n : Nat}
    (h : endAfterDelim l = some n) :
    ∃ w1 w2 rest, l = w1 ++ (',' :: (w2 ++ (litOrig ++ rest))) ∧
      (∀ x ∈ w1, isWs x = true) ∧ (∀ x ∈ w2, isWs x = true) := by
  rw [endAfterDelim] at h
  split at h
  · next l2 heq =>
      split at h
      · next hlit =>
          obtain ⟨w1, hw1, hws1, _⟩ := wsLen_decomp l
          obtain ⟨w2, hw2, hws2, _⟩ := wsLen_decomp l2
          obtain ⟨rest, hrest⟩ := List.isPrefixOf_iff_prefix.mp hlit
          refine ⟨w1, w2, rest, ?_, hws1, hws2⟩
          rw [hw1, heq, hw2, ← hrest]
      · cases h
  · cases h

theorem exists_drop_of_containsSub {pat : List Char} :
    ∀ {u : List Char}, containsSub pat u = true → ∃ j, pat <+: u.drop j := by
  intro u
  induction u with
  | nil =>
      intro hq
      rw [containsSub] at hq
      exact ⟨0, by simp [List.isEmpty_iff.mp hq]⟩
  | cons x xs ih =>
      intro hq
      rw [containsSub] at hq
      rcases Bool.or_eq_true_iff.mp hq with h1 | h1
      · exact ⟨0, by simpa using List.isPrefixOf_iff_prefix.mp h1⟩
      · obtain ⟨j, hj⟩ := ih h1
        exact ⟨j + 1, by simpa using hj⟩

theorem containsSub_drop_false {pat l : List Char}
    (h : containsSub pat l = false) (i : Nat) :
    containsSub pat (l.drop i) = false := by
  cases hq : containsSub pat (l.drop i) with
  | false => rfl
  | true =>
      exfalso
      obtain ⟨j, hj⟩ := exists_drop_of_containsSub hq
      rw [List.drop_drop] at hj
      rw [containsSub_of_drop pat l _ hj] at h
      cases h

theorem matchContentStart_some {l : List Char} {n : Nat}
    (h : matchContentStart l = some n) : litContent <+: l := by
  rw [matchContentStart] at h
  split at h
  · next hp => exact List.isPrefixOf_iff_prefix.mp hp
  · cases h

theorem matchPath_some {l : List Char} {r : Nat × List Char}
    (h : matchPath l = some r) : litPath <+: l := by
  rw [matchPath] at h
  split at h
  · next hp => exact List.isPrefixOf_iff_prefix.mp hp
  · cases h

theorem matchContentEnd_cons {x : Char} {xs : List Char} {n : Nat}
    (h : matchContentEnd (x :: xs) = some n) :
    (x = '`' ∨ x = '"') ∧ ∃ m, endAfterDelim xs = some m := by
  rw [matchContentEnd] at h
  split at h
  · next hd =>
      constructor
      · rcases Bool.or_eq_true_iff.mp hd with h' | h'
        · exact Or.inl (by simpa using h')
        · exact Or.inr (by simpa using h')
      · cases he : endAfterDelim xs with
        | none => rw [he] at h; cases h
        | some m => exact ⟨m, rfl⟩
  · cases h

/-! ### Head-based refutations -/

theorem matchContentStart_cons_ne {x : Char} (l : List Char) (hx : x ≠ '"') :
    matchContentStart (x :: l) = none := by
  rw [matchContentStart]
  have : litContent.isPrefixOf (x :: l) = false := by
    rw [litContent]
    simp [List.isPrefixOf, Ne.symm hx]
  simp [this]

theorem matchPath_cons_ne {x : Char} (l : List Char) (hx : x ≠ '"') :
    matchPath (x :: l) = none := by
  rw [matchPath]
  have : litPath.isPrefixOf (x :: l) = false := by
    rw [litPath]
    simp [List.isPrefixOf, Ne.symm hx]
  simp [this]

theorem matchContentEnd_cons_ne {x : Char} (l : List Char) (hx1 : x ≠ '`')
    (hx2 : x ≠ '"') : matchContentEnd (x :: l) = none := by
  rw [matchContentEnd]
  have : (x == '`' || x == '"') = false := by
    simp [hx1, hx2]
  simp [this]

theorem endAfterDelim_cons_ne {x : Char} (l : List Char) (h1 : isWs x = false)
    (h2 : x ≠ ',') : endAfterDelim (x :: l) = none := by
  rw [endAfterDelim]
  have hw : wsLen (x :: l) = (0, x :: l) := by
    rw [wsLen]
    simp [h1]
  rw [hw]
  simp only []
  split
  · next l2 heq =>
      rw [List.cons.injEq] at heq
      exact absurd heq.1 h2
  · rfl

/-- No content-start match begins inside a content span that is followed by
a backtick. -/
theorem matchContentStart_none_inside {c : List Char}
    (hc : containsSub litContent c = false) (i : Nat) (hi : i < c.length)
    (t : List Char) : matchContentStart (c.drop i ++ '`' :: t) = none := by
  cases hm : matchContentStart (c.drop i ++ '`' :: t) with
  | none => rfl
  | some n =>
      exfalso
      have hp := matchContentStart_some hm
      rcases prefix_split_mem _ _ _ _ hp with h' | h'
      · have : litContent <+: c.drop i := h'
        exact not_prefix_drop_of_not_contains hc i this
      · revert h'
        decide

/-- No path match begins inside a content span that is followed by a
backtick. -/
theorem matchPath_none_inside {c : List Char}
    (hc : containsSub litPath c = false) (i : Nat) (hi : i < c.length)
    (t : List Char) : matchPath (c.drop i ++ '`' :: t) = none := by
  cases hm : matchPath (c.drop i ++ '`' :: t) with
  | none => rfl
  | some r =>
      exfalso
      have hp := matchPath_some hm
      rcases prefix_split_mem _ _ _ _ hp with h' | h'
      · exact not_prefix_drop_of_not_contains hc i h'
      · revert h'
        decide

/-- The end pattern cannot complete across a backtick boundary: after a
delimiter, everything up to `"original_path"` must be whitespace and one
comma, and the literal itself contains no backtick. -/
theorem endAfterDelim_none_before_backtick {u : List Char}
    (hu : containsSub litOrig u = false) (t : List Char) :
    endAfterDelim (u ++ '`' :: t) = none := by
  cases hm : endAfterDelim (u ++ '`' :: t) with
  | none => rfl
  | some n =>
      exfalso
      obtain ⟨w1, w2, rest, heq, hws1, hws2⟩ := endAfterDelim_decomp hm
      have hp : (w1 ++ (',' :: (w2 ++ litOrig))) <+: (u ++ '`' :: t) := by
        refine ⟨rest, ?_⟩
        rw [heq]
        simp
      rcases prefix_split_mem _ _ _ _ hp with h' | h'
      · -- the whole consumed prefix sits inside `u`, so litOrig is inside `u`
        obtain ⟨r2, hr2⟩ := h'
        have : litOrig <+: u.drop (w1.length + 1 + w2.length) := by
          refine ⟨r2, ?_⟩
          rw [← hr2]
          have : w1 ++ (',' :: (w2 ++ litOrig)) ++ r2 =
              (w1 ++ (',' :: w2)) ++ (litOrig ++ r2) := by simp
          rw [this]
          have hlen : (w1 ++ (',' :: w2)).length = w1.length + 1 + w2.length := by
            simp; omega
          rw [← hlen, List.drop_left]
        exact not_prefix_drop_of_not_contains hu _ this
      · -- the backtick would have to be whitespace, the comma, or part of
        -- the literal
        rcases List.mem_append.mp h' with h'' | h''
        · have := hws1 _ h''
          revert this
          decide
        · rcases List.mem_cons.mp h'' with h3 | h3
          · cases h3
          · rcases List.mem_append.mp h3 with h4 | h4
            · have := hws2 _ h4
              revert this
              decide
            · revert h4
              decide

/-- No content-end match begins inside a content span that is followed by a
backtick. -/
theorem matchContentEnd_none_inside {c : List Char}
    (hc : containsSub litOrig c = false) (i : Nat) (hi : i < c.length)
    (t : List Char) : matchContentEnd (c.drop i ++ '`' :: t) = none := by
  cases hd : c.drop i with
  | nil =>
      exfalso
      have := congrArg List.length hd
      simp at this
      omega
  | cons x cls =>
      have hcls : cls = c.drop (i + 1) := by
        have := congrArg List.tail hd
        rw [List.tail_drop] at this
        simpa using this.symm
      rw [List.cons_append]
      cases hm : matchContentEnd (x :: (cls ++ '`' :: t)) with
      | none => rfl
      | some n =>
          exfalso
          obtain ⟨_, m, hend⟩ := matchContentEnd_cons hm
          have hcc : containsSub litOrig cls = false := by
            rw [hcls]
            exact containsSub_drop_false hc (i + 1)
          rw [endAfterDelim_none_before_backtick hcc t] at hend
          cases hend


theorem scan_none_step (m : List Char → Option Nat) (c : Char) (cs : List Char)
    (pos : Nat) (h : m (c :: cs) = none) :
    scanPositions m (c :: cs) pos = scanPositions m cs (pos + 1) := by
  rw [scanPositions, h]

theorem scan_match_step (m : List Char → Option Nat) (c : Char) (cs : List Char)
    (pos len : Nat) (h : m (c :: cs) = some len) :
    scanPositions m (c :: cs) pos =
      pos :: scanPositions m (cs.drop (len - 1)) (pos + len) := by
  rw [scanPositions, h]

theorem scan_skip_all (m : List Char → Option Nat) :
    ∀ (a b : List Char) (pos : Nat),
      (∀ i, i < a.length → m (a.drop i ++ b) = none) →
      scanPositions m (a ++ b) pos = scanPositions m b (pos + a.length) := by
  intro a
  induction a with
  | nil => intro b pos _; simp
  | cons x a2 ih =>
      intro b pos h
      rw [List.cons_append]
      rw [scan_none_step m x (a2 ++ b) pos (by simpa using h 0 (by simp))]
      rw [ih b (pos + 1) (fun i hi => by simpa using h (i + 1) (by simp; omega))]
      have : pos + 1 + a2.length = pos + (x :: a2).length := by simp; omega
      rw [this]

theorem matchContentStart_none_at_value (v rest : List Char) (hv : '"' ∉ v)
    (hr : rest.head? ≠ some ':') :
    matchContentStart ('"' :: (v ++ ('"' :: rest))) = none := by
  cases hm : matchContentStart ('"' :: (v ++ ('"' :: rest))) with
  | none => rfl
  | some n =>
      exfalso
      have hp := matchContentStart_some hm
      have hform : litContent =
          '"' :: (['c', 'o', 'n', 't', 'e', 'n', 't'] ++ ('"' :: [':'])) := rfl
      rw [hform] at hp
      exact lit_not_prefix_quoted ['c', 'o', 'n', 't', 'e', 'n', 't'] [':'] v rest ':'
        (by decide) rfl hv hr hp

theorem matchContentStart_none_in_name (v : List Char)
    (hv : ∀ x ∈ v, x ≠ '"') (i : Nat) (hi : i < v.length) (R : List Char) :
    matchContentStart (v.drop i ++ R) = none := by
  rw [List.drop_eq_getElem_cons hi, List.cons_append]
  exact matchContentStart_cons_ne _ (hv _ (List.getElem_mem hi))

theorem goodName_chars {s : String} (h : goodName s = true) :
    s.toList ≠ [] ∧ ∀ x ∈ s.toList, x ≠ '"' ∧ x ≠ '`' ∧ x ≠ ',' ∧ isWs x = false := by
  rw [goodName, Bool.and_eq_true] at h
  constructor
  · intro hnil
    rw [hnil] at h
    simp at h
  · intro x hx
    have := List.all_eq_true.mp h.2 x hx
    simp at this
    exact ⟨this.1.1.1, this.1.1.2, this.1.2, this.2⟩

theorem blockText_decomp (b : FileBlock) (rest : List Char) :
    blockText b ++ rest =
      segA.take 9 ++ (('"' :: b.path.toList) ++ (segB ++ (b.content ++
        (segC.take 20 ++ (('"' :: b.orig.toList) ++ (segD ++ rest)))))) := by
  simp [blockText, segA, segB, segC, segD]

theorem segB_resplit (Y : List Char) :
    segB ++ Y = segB.take 3 ++ (segB.drop 3 ++ Y) := by
  simp [segB]

-- start-scanner: the nine leading concrete characters of a block
theorem scanS_skipA (X : List Char) :
    ∀ i, i < (segA.take 9).length →
      matchContentStart ((segA.take 9).drop i ++ X) = none := by
  intro i hi
  have hi9 : i < 9 := by simpa [segA] using hi
  clear hi
  interval_cases i <;>
    simp [segA, matchContentStart, litContent, List.isPrefixOf]

-- start-scanner: the quoted path value
theorem scanS_skipPath (v X : List Char) (hv : ∀ x ∈ v, x ≠ '"') :
    ∀ i, i < ('"' :: v).length →
      matchContentStart (('"' :: v).drop i ++ (segB ++ X)) = none := by
  intro i hi
  cases i with
  | zero =>
      rw [List.drop_zero, List.cons_append]
      rw [show segB ++ X = '"' :: (segB.drop 1 ++ X) from by simp [segB]]
      exact matchContentStart_none_at_value v (segB.drop 1 ++ X)
        (fun hm => (hv _ hm) rfl) (by simp [segB])
  | succ j =>
      rw [List.drop_succ_cons]
      simp only [List.length_cons] at hi
      exact matchContentStart_none_in_name v hv j (by omega) _

-- start-scanner: segB.take 3 then the match at segB.drop 3
theorem scanS_skipB3 (X : List Char) :
    ∀ i, i < (segB.take 3).length →
      matchContentStart ((segB.take 3).drop i ++ X) = none := by
  intro i hi
  have hi3 : i < 3 := by simpa [segB] using hi
  clear hi
  interval_cases i <;>
    simp [segB, matchContentStart, litContent, List.isPrefixOf]

theorem scanS_matchB (X : List Char) :
    matchContentStart (segB.drop 3 ++ X) = some 12 := by
  simp [segB, matchContentStart, litContent, List.isPrefixOf, wsDelimLen, isWs]

-- start-scanner: the content span (boundary backtick from segC)
theorem scanS_skipContent (c X : List Char)
    (hc : containsSub litContent c = false) :
    ∀ i, i < c.length →
      matchContentStart (c.drop i ++ (segC.take 20 ++ X)) = none := by
  intro i hi
  rw [show segC.take 20 ++ X = '`' :: ((segC.take 20).drop 1 ++ X) from by simp [segC]]
  exact matchContentStart_none_inside hc i hi _

-- start-scanner: segC.take 20 concrete characters
theorem scanS_skipC (X : List Char) :
    ∀ i, i < (segC.take 20).length →
      matchContentStart ((segC.take 20).drop i ++ X) = none := by
  intro i hi
  have hi20 : i < 20 := by simpa [segC] using hi
  clear hi
  interval_cases i <;>
    simp [segC, matchContentStart, litContent, List.isPrefixOf]

-- start-scanner: the quoted orig value
theorem scanS_skipOrig (v X : List Char) (hv : ∀ x ∈ v, x ≠ '"') :
    ∀ i, i < ('"' :: v).length →
      matchContentStart (('"' :: v).drop i ++ (segD ++ X)) = none := by
  intro i hi
  cases i with
  | zero =>
      rw [List.drop_zero, List.cons_append]
      rw [show segD ++ X = '"' :: (segD.drop 1 ++ X) from by simp [segD]]
      exact matchContentStart_none_at_value v (segD.drop 1 ++ X)
        (fun hm => (hv _ hm) rfl) (by simp [segD])
  | succ j =>
      rw [List.drop_succ_cons]
      simp only [List.length_cons] at hi
      exact matchContentStart_none_in_name v hv j (by omega) _

theorem scanS_skipD (X : List Char) :
    ∀ i, i < segD.length →
      matchContentStart (segD.drop i ++ X) = none := by
  intro i hi
  have hi4 : i < 4 := by simpa [segD] using hi
  clear hi
  interval_cases i <;>
    simp [segD, matchContentStart, litContent, List.isPrefixOf]

theorem scanS_block (b : FileBlock) (rest : List Char) (q : Nat)
    (hb : goodBlock b = true) :
    scanPositions matchContentStart (blockText b ++ rest) q =
      (q + 13 + b.path.toList.length) ::
        scanPositions matchContentStart rest (q + blockLen b) := by
  rw [goodBlock, Bool.and_eq_true, Bool.and_eq_true] at hb
  obtain ⟨⟨hp, ho⟩, hc⟩ := hb
  rw [goodContent, Bool.and_eq_true, Bool.and_eq_true] at hc
  have hp2 := (goodName_chars hp).2
  have ho2 := (goodName_chars ho).2
  have hcS : containsSub litContent b.content = false := by
    have := hc.1.1
    cases h2 : containsSub litContent b.content
    · rfl
    · rw [h2] at this; cases this
  rw [blockText_decomp]
  rw [scan_skip_all _ (segA.take 9) _ q (scanS_skipA _)]
  rw [scan_skip_all _ ('"' :: b.path.toList) _ _
    (scanS_skipPath b.path.toList _ (fun x hx => (hp2 x hx).1))]
  rw [segB_resplit]
  rw [scan_skip_all _ (segB.take 3) _ _ (scanS_skipB3 _)]
  rw [show segB.drop 3 ++ (b.content ++ (segC.take 20 ++ (('"' :: b.orig.toList) ++ (segD ++ rest)))) = '"' :: ((segB.drop 4) ++ (b.content ++ (segC.take 20 ++ (('"' :: b.orig.toList) ++ (segD ++ rest))))) from by simp [segB]]
  rw [scan_match_step _ _ _ _ 12 (by
    have := scanS_matchB (b.content ++ (segC.take 20 ++ (('"' :: b.orig.toList) ++ (segD ++ rest))))
    rw [show segB.drop 3 ++ (b.content ++ (segC.take 20 ++ (('"' :: b.orig.toList) ++ (segD ++ rest)))) = '"' :: ((segB.drop 4) ++ (b.content ++ (segC.take 20 ++ (('"' :: b.orig.toList) ++ (segD ++ rest))))) from by simp [segB]] at this
    exact this)]
  rw [show ((segB.drop 4) ++ (b.content ++ (segC.take 20 ++ (('"' :: b.orig.toList) ++ (segD ++ rest))))).drop (12 - 1) = b.content ++ (segC.take 20 ++ (('"' :: b.orig.toList) ++ (segD ++ rest))) from by
    rw [show (12 : Nat) - 1 = (segB.drop 4).length from by simp [segB]]
    rw [List.drop_left]]
  rw [scan_skip_all _ b.content _ _ (scanS_skipContent b.content _ hcS)]
  rw [scan_skip_all _ (segC.take 20) _ _ (scanS_skipC _)]
  rw [scan_skip_all _ ('"' :: b.orig.toList) _ _
    (scanS_skipOrig b.orig.toList _ (fun x hx => (ho2 x hx).1))]
  rw [scan_skip_all _ segD _ _ (scanS_skipD _)]
  have e1 : q + (List.take 9 segA).length + ('"' :: b.path.toList).length +
      (List.take 3 segB).length = q + 13 + b.path.toList.length := by
    simp [segA, segB]
    omega
  have e2 : q + 13 + b.path.toList.length + 12 + b.content.length +
      (List.take 20 segC).length + ('"' :: b.orig.toList).length + segD.length =
      q + blockLen b := by
    simp [segA, segB, segC, segD, blockLen]
    omega
  rw [e1, e2]


/-! End-scanner walk -/

theorem matchContentEnd_delim_none (d : Char) (l : List Char)
    (h : endAfterDelim l = none) : matchContentEnd (d :: l) = none := by
  rw [matchContentEnd]
  cases hd : (d == '`' || d == '"') with
  | false => simp
  | true => simp [h]

theorem endAfterDelim_none_of_name (v : List Char)
    (hv : ∀ x ∈ v, x ≠ ',' ∧ isWs x = false) (r : List Char)
    (hr : r.head? = some '"') :
    endAfterDelim (v ++ r) = none := by
  cases v with
  | nil =>
      cases r with
      | nil => cases hr
      | cons rc rr =>
          simp at hr
          rw [List.nil_append, hr]
          exact endAfterDelim_cons_ne rr (by decide) (by decide)
  | cons x v2 =>
      rw [List.cons_append]
      exact endAfterDelim_cons_ne _ ((hv x (List.mem_cons_self _ _)).2)
        ((hv x (List.mem_cons_self _ _)).1)

theorem matchContentEnd_none_in_name (v : List Char)
    (hv : ∀ x ∈ v, x ≠ '"' ∧ x ≠ '`') (i : Nat) (hi : i < v.length)
    (R : List Char) : matchContentEnd (v.drop i ++ R) = none := by
  rw [List.drop_eq_getElem_cons hi, List.cons_append]
  exact matchContentEnd_cons_ne _ (hv _ (List.getElem_mem hi)).2
    (hv _ (List.getElem_mem hi)).1

theorem scanE_skipA (X : List Char) :
    ∀ i, i < (segA.take 9).length →
      matchContentEnd ((segA.take 9).drop i ++ X) = none := by
  intro i hi
  have hi9 : i < 9 := by simpa [segA] using hi
  clear hi
  interval_cases i <;>
    simp [segA, matchContentEnd, endAfterDelim, wsLen, isWs, litOrig, List.isPrefixOf]

theorem scanE_skipPath (v X : List Char)
    (hv : ∀ x ∈ v, x ≠ '"' ∧ x ≠ '`' ∧ x ≠ ',' ∧ isWs x = false) :
    ∀ i, i < ('"' :: v).length →
      matchContentEnd (('"' :: v).drop i ++ (segB ++ X)) = none := by
  intro i hi
  cases i with
  | zero =>
      rw [List.drop_zero, List.cons_append]
      apply matchContentEnd_delim_none
      exact endAfterDelim_none_of_name v
        (fun x hx => ⟨(hv x hx).2.2.1, (hv x hx).2.2.2⟩) (segB ++ X)
        (by simp [segB])
  | succ j =>
      rw [List.drop_succ_cons]
      simp only [List.length_cons] at hi
      exact matchContentEnd_none_in_name v
        (fun x hx => ⟨(hv x hx).1, (hv x hx).2.1⟩) j (by omega) _

theorem scanE_skipB (c X : List Char) (hc : containsSub litOrig c = false) :
    ∀ i, i < segB.length →
      matchContentEnd (segB.drop i ++ (c ++ (segC.take 20 ++ X))) = none := by
  intro i hi
  have hi15 : i < 15 := by simpa [segB] using hi
  clear hi
  by_cases h14 : i = 14
  · subst h14
    rw [show segB.drop 14 = ['`'] from rfl, List.singleton_append]
    apply matchContentEnd_delim_none
    rw [show c ++ (segC.take 20 ++ X) =
      c ++ ('`' :: ((segC.take 20).drop 1 ++ X)) from by simp [segC]]
    exact endAfterDelim_none_before_backtick hc _
  · have hi14 : i < 14 := by omega
    clear h14 hi15
    interval_cases i <;>
      simp [segB, matchContentEnd, endAfterDelim, wsLen, isWs, litOrig,
        List.isPrefixOf]

theorem scanE_skipContent (c X : List Char)
    (hc : containsSub litOrig c = false) :
    ∀ i, i < c.length →
      matchContentEnd (c.drop i ++ (segC.take 20 ++ X)) = none := by
  intro i hi
  rw [show segC.take 20 ++ X = '`' :: ((segC.take 20).drop 1 ++ X) from by
    simp [segC]]
  exact matchContentEnd_none_inside hc i hi _

theorem scanE_matchC (X : List Char) :
    matchContentEnd (segC.take 20 ++ X) = some 18 := by
  simp [segC, matchContentEnd, endAfterDelim, wsLen, isWs, litOrig,
    List.isPrefixOf]

theorem scanE_skipCO (X : List Char) :
    ∀ i, i < ([':', ' '] : List Char).length →
      matchContentEnd (([':', ' '] : List Char).drop i ++ X) = none := by
  intro i hi
  have hi2 : i < 2 := by simpa using hi
  clear hi
  interval_cases i <;>
    simp [matchContentEnd, endAfterDelim, wsLen, isWs, litOrig, List.isPrefixOf]

theorem scanE_skipOrig (v X : List Char)
    (hv : ∀ x ∈ v, x ≠ '"' ∧ x ≠ '`' ∧ x ≠ ',' ∧ isWs x = false) :
    ∀ i, i < ('"' :: v).length →
      matchContentEnd (('"' :: v).drop i ++ (segD ++ X)) = none := by
  intro i hi
  cases i with
  | zero =>
      rw [List.drop_zero, List.cons_append]
      apply matchContentEnd_delim_none
      exact endAfterDelim_none_of_name v
        (fun x hx => ⟨(hv x hx).2.2.1, (hv x hx).2.2.2⟩) (segD ++ X)
        (by simp [segD])
  | succ j =>
      rw [List.drop_succ_cons]
      simp only [List.length_cons] at hi
      exact matchContentEnd_none_in_name v
        (fun x hx => ⟨(hv x hx).1, (hv x hx).2.1⟩) j (by omega) _

theorem scanE_skipD (X : List Char) :
    ∀ i, i < segD.length →
      matchContentEnd (segD.drop i ++ X) = none := by
  intro i hi
  have hi4 : i < 4 := by simpa [segD] using hi
  clear hi
  interval_cases i <;>
    simp [segD, matchContentEnd, endAfterDelim, wsLen, isWs, litOrig,
      List.isPrefixOf]

theorem scanE_block (b : FileBlock) (rest : List Char) (q : Nat)
    (hb : goodBlock b = true) :
    scanPositions matchContentEnd (blockText b ++ rest) q =
      (q + 25 + b.path.toList.length + b.content.length) ::
        scanPositions matchContentEnd rest (q + blockLen b) := by
  rw [goodBlock, Bool.and_eq_true, Bool.and_eq_true] at hb
  obtain ⟨⟨hp, ho⟩, hc⟩ := hb
  rw [goodContent, Bool.and_eq_true, Bool.and_eq_true] at hc
  have hp2 := (goodName_chars hp).2
  have ho2 := (goodName_chars ho).2
  have hcO : containsSub litOrig b.content = false := by
    have := hc.2
    cases h2 : containsSub litOrig b.content
    · rfl
    · rw [h2] at this; cases this
  rw [blockText_decomp]
  rw [scan_skip_all _ (segA.take 9) _ q (scanE_skipA _)]
  rw [scan_skip_all _ ('"' :: b.path.toList) _ _
    (scanE_skipPath b.path.toList _ hp2)]
  rw [scan_skip_all _ segB _ _ (fun i hi => scanE_skipB b.content _ hcO i hi)]
  rw [scan_skip_all _ b.content _ _ (scanE_skipContent b.content _ hcO)]
  rw [show segC.take 20 ++ (('"' :: b.orig.toList) ++ (segD ++ rest)) =
    '`' :: ((segC.take 20).drop 1 ++ (('"' :: b.orig.toList) ++ (segD ++ rest)))
    from by simp [segC]]
  rw [scan_match_step _ _ _ _ 18 (by
    have := scanE_matchC (('"' :: b.orig.toList) ++ (segD ++ rest))
    rw [show segC.take 20 ++ (('"' :: b.orig.toList) ++ (segD ++ rest)) =
      '`' :: ((segC.take 20).drop 1 ++ (('"' :: b.orig.toList) ++ (segD ++ rest)))
      from by simp [segC]] at this
    exact this)]
  rw [show (((segC.take 20).drop 1) ++ (('"' :: b.orig.toList) ++
      (segD ++ rest))).drop (18 - 1) = [':', ' '] ++ (('"' :: b.orig.toList) ++
      (segD ++ rest)) from by simp [segC]]
  rw [scan_skip_all _ [':', ' '] _ _ (scanE_skipCO _)]
  rw [scan_skip_all _ ('"' :: b.orig.toList) _ _
    (scanE_skipOrig b.orig.toList _ ho2)]
  rw [scan_skip_all _ segD _ _ (scanE_skipD _)]
  have e1 : q + (List.take 9 segA).length + ('"' :: b.path.toList).length +
      segB.length + b.content.length = q + 25 + b.path.toList.length +
      b.content.length := by
    simp [segA, segB]
    omega
  have e2 : q + 25 + b.path.toList.length + b.content.length + 18 +
      ([':', ' '] : List Char).length + ('"' :: b.orig.toList).length +
      segD.length = q + blockLen b := by
    simp [segD, blockLen]
    omega
  rw [e1, e2]

/-! Path-scanner walk -/

theorem scanCaps_none_step (c : Char) (cs : List Char)
    (h : matchPath (c :: cs) = none) :
    scanPathCaps (c :: cs) = scanPathCaps cs := by
  rw [scanPathCaps, h]

theorem scanCaps_match_step (c : Char) (cs : List Char) (len : Nat)
    (cap : List Char) (h : matchPath (c :: cs) = some (len, cap)) :
    scanPathCaps (c :: cs) = cap :: scanPathCaps (cs.drop (len - 1)) := by
  rw [scanPathCaps, h]

theorem scanCaps_skip_all :
    ∀ (a b : List Char),
      (∀ i, i < a.length → matchPath (a.drop i ++ b) = none) →
      scanPathCaps (a ++ b) = scanPathCaps b := by
  intro a
  induction a with
  | nil => intro b _; simp
  | cons x a2 ih =>
      intro b h
      rw [List.cons_append]
      rw [scanCaps_none_step x (a2 ++ b) (by simpa using h 0 (by simp))]
      exact ih b (fun i hi => by simpa using h (i + 1) (by simp; omega))

theorem matchPath_none_at_value (v rest : List Char) (hv : '"' ∉ v)
    (hr : rest.head? ≠ some ':') :
    matchPath ('"' :: (v ++ ('"' :: rest))) = none := by
  cases hm : matchPath ('"' :: (v ++ ('"' :: rest))) with
  | none => rfl
  | some r =>
      exfalso
      have hp := matchPath_some hm
      have hform : litPath = '"' :: (['p', 'a', 't', 'h'] ++ ('"' :: [':'])) := rfl
      rw [hform] at hp
      exact lit_not_prefix_quoted ['p', 'a', 't', 'h'] [':'] v rest ':'
        (by decide) rfl hv hr hp

theorem matchPath_none_in_name (v : List Char)
    (hv : ∀ x ∈ v, x ≠ '"') (i : Nat) (hi : i < v.length) (R : List Char) :
    matchPath (v.drop i ++ R) = none := by
  rw [List.drop_eq_getElem_cons hi, List.cons_append]
  exact matchPath_cons_ne _ (hv _ (List.getElem_mem hi))

theorem takeWhile_quote_free (v : List Char) (hv : ∀ x ∈ v, x ≠ '"')
    (r : List Char) :
    (v ++ '"' :: r).takeWhile (· ≠ '"') = v := by
  induction v with
  | nil => simp
  | cons x v2 ih =>
      rw [List.cons_append, List.takeWhile_cons]
      have hx : x ≠ '"' := hv x (List.mem_cons_self _ _)
      rw [if_pos (by simp [hx])]
      rw [ih (fun y hy => hv y (List.mem_cons_of_mem _ hy))]

theorem pathAfterLit_value (v r : List Char) (hv : ∀ x ∈ v, x ≠ '"')
    (hne : v ≠ []) :
    pathAfterLit (' ' :: ('"' :: (v ++ ('"' :: r)))) = some (3 + v.length, v) := by
  rw [pathAfterLit]
  have hws : wsLen (' ' :: ('"' :: (v ++ ('"' :: r)))) =
      (1, '"' :: (v ++ ('"' :: r))) := by
    rw [wsLen]
    simp [isWs, wsLen]
  rw [hws]
  simp only []
  rw [takeWhile_quote_free v hv r]
  have hiv : v.isEmpty = false := by
    cases v with
    | nil => exact absurd rfl hne
    | cons a b => rfl
  rw [hiv]
  simp only [Bool.false_eq_true, if_false]
  rw [List.drop_left]
  have harith : (1 : Nat) + 1 + v.length + 1 = 3 + v.length := by omega
  simp [harith]

theorem scanP_matchA (v X : List Char) (hv : ∀ x ∈ v, x ≠ '"') (hne : v ≠ []) :
    matchPath (segA.drop 1 ++ (v ++ (segB ++ X))) =
      some (10 + v.length, v) := by
  have hsplit : segA.drop 1 ++ (v ++ (segB ++ X)) =
      litPath ++ (' ' :: ('"' :: (v ++ ('"' :: (segB.drop 1 ++ X))))) := by
    simp [segA, segB, litPath]
  rw [hsplit, matchPath]
  have hpre : litPath.isPrefixOf
      (litPath ++ (' ' :: ('"' :: (v ++ ('"' :: (segB.drop 1 ++ X)))))) = true :=
    List.isPrefixOf_iff_prefix.mpr ⟨_, rfl⟩
  rw [hpre]
  simp only [if_true]
  rw [List.drop_left]
  rw [pathAfterLit_value v (segB.drop 1 ++ X) hv hne]
  simp [litPath]
  omega


theorem matchPath_none_inside2 {c : List Char}
    (hc : containsSub litPath c = false) (i : Nat) (hi : i < c.length)
    (X : List Char) : matchPath (c.drop i ++ (segC.take 20 ++ X)) = none := by
  rw [show segC.take 20 ++ X = '`' :: ((segC.take 20).drop 1 ++ X) from by
    simp [segC]]
  exact matchPath_none_inside hc i hi _

theorem scanP_skipB1 (X : List Char) :
    ∀ i, i < (segB.drop 1).length →
      matchPath ((segB.drop 1).drop i ++ X) = none := by
  intro i hi
  have hi14 : i < 14 := by simpa [segB] using hi
  clear hi
  interval_cases i <;>
    simp [segB, matchPath, litPath, List.isPrefixOf]

theorem scanP_skipC (X : List Char) :
    ∀ i, i < (segC.take 20).length →
      matchPath ((segC.take 20).drop i ++ X) = none := by
  intro i hi
  have hi20 : i < 20 := by simpa [segC] using hi
  clear hi
  interval_cases i <;>
    simp [segC, matchPath, litPath, List.isPrefixOf]

theorem scanP_skipOrig (v X : List Char) (hv : ∀ x ∈ v, x ≠ '"') :
    ∀ i, i < ('"' :: v).length →
      matchPath (('"' :: v).drop i ++ (segD ++ X)) = none := by
  intro i hi
  cases i with
  | zero =>
      rw [List.drop_zero, List.cons_append]
      rw [show segD ++ X = '"' :: (segD.drop 1 ++ X) from by simp [segD]]
      exact matchPath_none_at_value v (segD.drop 1 ++ X)
        (fun hm => (hv _ hm) rfl) (by simp [segD])
  | succ j =>
      rw [List.drop_succ_cons]
      simp only [List.length_cons] at hi
      exact matchPath_none_in_name v hv j (by omega) _

theorem scanP_skipD (X : List Char) :
    ∀ i, i < segD.length → matchPath (segD.drop i ++ X) = none := by
  intro i hi
  have hi4 : i < 4 := by simpa [segD] using hi
  clear hi
  interval_cases i <;>
    simp [segD, matchPath, litPath, List.isPrefixOf]

theorem blockText_decompP (b : FileBlock) (rest : List Char) :
    blockText b ++ rest =
      '\x7b' :: (segA.drop 1 ++ (b.path.toList ++ (segB ++ (b.content ++
        (segC.take 20 ++ (('"' :: b.orig.toList) ++ (segD ++ rest))))))) := by
  simp [blockText, segA, segB, segC, segD]

theorem scanP_block (b : FileBlock) (rest : List Char)
    (hb : goodBlock b = true) :
    scanPathCaps (blockText b ++ rest) =
      b.path.toList :: scanPathCaps rest := by
  rw [goodBlock, Bool.and_eq_true, Bool.and_eq_true] at hb
  obtain ⟨⟨hp, ho⟩, hc⟩ := hb
  rw [goodContent, Bool.and_eq_true, Bool.and_eq_true] at hc
  have hp1 := (goodName_chars hp).1
  have hp2 := (goodName_chars hp).2
  have ho2 := (goodName_chars ho).2
  have hcP : containsSub litPath b.content = false := by
    have := hc.1.2
    cases h2 : containsSub litPath b.content
    · rfl
    · rw [h2] at this; cases this
  have hpq : ∀ x ∈ b.path.toList, x ≠ '"' := fun x hx => (hp2 x hx).1
  have hoq : ∀ x ∈ b.orig.toList, x ≠ '"' := fun x hx => (ho2 x hx).1
  rw [blockText_decompP]
  rw [scanCaps_none_step _ _ (matchPath_cons_ne _ (by decide))]
  set Z := b.content ++ (segC.take 20 ++ (('"' :: b.orig.toList) ++ (segD ++ rest)))
    with hZ
  have hA1 : segA.drop 1 ++ (b.path.toList ++ (segB ++ Z)) =
      '"' :: (segA.drop 2 ++ (b.path.toList ++ (segB ++ Z))) := by
    simp [segA]
  rw [hA1]
  rw [scanCaps_match_step _ _ (10 + b.path.toList.length) b.path.toList (by
    rw [← hA1]
    exact scanP_matchA b.path.toList Z hpq hp1)]
  rw [show (segA.drop 2 ++ (b.path.toList ++ (segB ++ Z))).drop
      (10 + b.path.toList.length - 1) = segB.drop 1 ++ Z from by
    rw [show segA.drop 2 ++ (b.path.toList ++ (segB ++ Z)) =
      (segA.drop 2 ++ (b.path.toList ++ ['"'])) ++ (segB.drop 1 ++ Z) from by
      simp [segA, segB]]
    rw [show 10 + b.path.toList.length - 1 =
      (segA.drop 2 ++ (b.path.toList ++ ['"'])).length from by simp [segA]; omega]
    rw [List.drop_left]]
  rw [scanCaps_skip_all (segB.drop 1) Z (scanP_skipB1 Z)]
  rw [hZ]
  rw [scanCaps_skip_all b.content _ (fun i hi => matchPath_none_inside2 hcP i hi _)]
  rw [scanCaps_skip_all (segC.take 20) _ (scanP_skipC _)]
  rw [scanCaps_skip_all ('"' :: b.orig.toList) _ (scanP_skipOrig b.orig.toList _ hoq)]
  rw [scanCaps_skip_all segD _ (scanP_skipD _)]


/-! ### Assembling the scans over a whole response -/

def offAux (bs : List FileBlock) (i : Nat) : Nat :=
  ((bs.take i).map blockLen).sum

/-- Expected content-start positions for a block list starting at `q`. -/
def startsList : List FileBlock → Nat → List Nat
  | [], _ => []
  | b :: bs, q => (q + 13 + b.path.toList.length) :: startsList bs (q + blockLen b)

/-- Expected content-end positions for a block list starting at `q`. -/
def endsList : List FileBlock → Nat → List Nat
  | [], _ => []
  | b :: bs, q =>
      (q + 25 + b.path.toList.length + b.content.length) ::
        endsList bs (q + blockLen b)

theorem startsList_length : ∀ (bs : List FileBlock) (q : Nat),
    (startsList bs q).length = bs.length := by
  intro bs
  induction bs with
  | nil => intro q; rfl
  | cons b bs ih => intro q; simp [startsList, ih]

theorem endsList_length : ∀ (bs : List FileBlock) (q : Nat),
    (endsList bs q).length = bs.length := by
  intro bs
  induction bs with
  | nil => intro q; rfl
  | cons b bs ih => intro q; simp [endsList, ih]

theorem startsList_getD : ∀ (bs : List FileBlock) (q i : Nat)
    (hi : i < bs.length),
    (startsList bs q).getD i 0 =
      q + offAux bs i + 13 + bs[i].path.toList.length := by
  intro bs
  induction bs with
  | nil => intro q i hi; exact absurd hi (Nat.not_lt_zero i)
  | cons b bs ih =>
      intro q i hi
      cases i with
      | zero => simp [startsList, offAux]
      | succ j =>
          have hj : j < bs.length := by
            simp only [List.length_cons] at hi; omega
          simp only [startsList, List.getD_cons_succ, List.getElem_cons_succ]
          rw [ih (q + blockLen b) j hj]
          have : offAux (b :: bs) (j + 1) = blockLen b + offAux bs j := by
            simp [offAux, List.take_succ_cons]
          omega

theorem endsList_getD : ∀ (bs : List FileBlock) (q i : Nat)
    (hi : i < bs.length),
    (endsList bs q).getD i 0 =
      q + offAux bs i + 25 + bs[i].path.toList.length +
        bs[i].content.length := by
  intro bs
  induction bs with
  | nil => intro q i hi; exact absurd hi (Nat.not_lt_zero i)
  | cons b bs ih =>
      intro q i hi
      cases i with
      | zero => simp [endsList, offAux]
      | succ j =>
          have hj : j < bs.length := by
            simp only [List.length_cons] at hi; omega
          simp only [endsList, List.getD_cons_succ, List.getElem_cons_succ]
          rw [ih (q + blockLen b) j hj]
          have : offAux (b :: bs) (j + 1) = blockLen b + offAux bs j := by
            simp [offAux, List.take_succ_cons]
          omega

-- skipping the response header
theorem scanS_skipH (X : List Char) :
    ∀ i, i < segH.length → matchContentStart (segH.drop i ++ X) = none := by
  intro i hi
  have hi22 : i < 22 := by simpa [segH] using hi
  clear hi
  interval_cases i <;>
    simp [segH, matchContentStart, litContent, List.isPrefixOf]

theorem scanE_skipH (X : List Char) :
    ∀ i, i < segH.length → matchContentEnd (segH.drop i ++ X) = none := by
  intro i hi
  have hi22 : i < 22 := by simpa [segH] using hi
  clear hi
  interval_cases i <;>
    simp [segH, matchContentEnd, endAfterDelim, wsLen, isWs, litOrig,
      List.isPrefixOf]

theorem scanP_skipH (X : List Char) :
    ∀ i, i < segH.length → matchPath (segH.drop i ++ X) = none := by
  intro i hi
  have hi22 : i < 22 := by simpa [segH] using hi
  clear hi
  interval_cases i <;>
    simp [segH, matchPath, litPath, List.isPrefixOf]

-- the closing "]\x7d" produces no further matches
theorem scanS_tail (pos : Nat) :
    scanPositions matchContentStart segF pos = [] := by
  rw [show segF = ']' :: ['\x7d'] from rfl]
  rw [scan_none_step _ _ _ _ (by
    simp [matchContentStart, litContent, List.isPrefixOf])]
  rw [scan_none_step _ _ _ _ (by
    simp [matchContentStart, litContent, List.isPrefixOf])]
  rw [scanPositions]

theorem scanE_tail (pos : Nat) :
    scanPositions matchContentEnd segF pos = [] := by
  rw [show segF = ']' :: ['\x7d'] from rfl]
  rw [scan_none_step _ _ _ _ (by
    simp [matchContentEnd, endAfterDelim, wsLen, isWs, litOrig,
      List.isPrefixOf])]
  rw [scan_none_step _ _ _ _ (by
    simp [matchContentEnd, endAfterDelim, wsLen, isWs, litOrig,
      List.isPrefixOf])]
  rw [scanPositions]

theorem scanP_tail : scanPathCaps segF = [] := by
  rw [show segF = ']' :: ['\x7d'] from rfl]
  rw [scanCaps_none_step _ _ (by
    simp [matchPath, litPath, List.isPrefixOf])]
  rw [scanCaps_none_step _ _ (by
    simp [matchPath, litPath, List.isPrefixOf])]
  rw [scanPathCaps]

-- scans over the whole body
theorem scanS_body : ∀ (bs : List FileBlock),
    (∀ b ∈ bs, goodBlock b = true) → ∀ q,
      scanPositions matchContentStart (bodyText bs ++ segF) q =
        startsList bs q := by
  intro bs
  induction bs with
  | nil =>
      intro _ q
      simp only [bodyText, List.nil_append, startsList]
      exact scanS_tail q
  | cons b bs ih =>
      intro h q
      rw [bodyText, List.append_assoc]
      rw [scanS_block b _ q (h b (List.mem_cons_self _ _))]
      rw [startsList, ih (fun x hx => h x (List.mem_cons_of_mem _ hx))]

theorem scanE_body : ∀ (bs : List FileBlock),
    (∀ b ∈ bs, goodBlock b = true) → ∀ q,
      scanPositions matchContentEnd (bodyText bs ++ segF) q =
        endsList bs q := by
  intro bs
  induction bs with
  | nil =>
      intro _ q
      simp only [bodyText, List.nil_append, endsList]
      exact scanE_tail q
  | cons b bs ih =>
      intro h q
      rw [bodyText, List.append_assoc]
      rw [scanE_block b _ q (h b (List.mem_cons_self _ _))]
      rw [endsList, ih (fun x hx => h x (List.mem_cons_of_mem _ hx))]

theorem scanP_body : ∀ (bs : List FileBlock),
    (∀ b ∈ bs, goodBlock b = true) →
      scanPathCaps (bodyText bs ++ segF) =
        bs.map fun b => b.path.toList := by
  intro bs
  induction bs with
  | nil =>
      intro _
      simp only [bodyText, List.nil_append, List.map_nil]
      exact scanP_tail
  | cons b bs ih =>
      intro h
      rw [bodyText, List.append_assoc]
      rw [scanP_block b _ (h b (List.mem_cons_self _ _))]
      rw [List.map_cons, ih (fun x hx => h x (List.mem_cons_of_mem _ hx))]

-- scans over the whole response text
theorem scanS_input (bs : List FileBlock)
    (h : ∀ b ∈ bs, goodBlock b = true) :
    scanPositions matchContentStart (mkInput bs) 0 = startsList bs 22 := by
  rw [mkInput, scan_skip_all matchContentStart segH _ 0 (fun i hi => scanS_skipH _ i hi)]
  rw [show (0 : Nat) + segH.length = 22 from by simp [segH]]
  exact scanS_body bs h 22

theorem scanE_input (bs : List FileBlock)
    (h : ∀ b ∈ bs, goodBlock b = true) :
    scanPositions matchContentEnd (mkInput bs) 0 = endsList bs 22 := by
  rw [mkInput, scan_skip_all matchContentEnd segH _ 0 (fun i hi => scanE_skipH _ i hi)]
  rw [show (0 : Nat) + segH.length = 22 from by simp [segH]]
  exact scanE_body bs h 22

theorem scanP_input (bs : List FileBlock)
    (h : ∀ b ∈ bs, goodBlock b = true) :
    scanPathCaps (mkInput bs) = bs.map fun b => b.path.toList := by
  rw [mkInput, scanCaps_skip_all segH _ (fun i hi => scanP_skipH _ i hi)]
  exact scanP_body bs h


/-! ### Locating block `i` inside the response text -/

theorem bodyText_drop : ∀ (bs : List FileBlock) (i : Nat) (hi : i < bs.length),
    (bodyText bs ++ segF).drop (offAux bs i) =
      blockText bs[i] ++ (bodyText (bs.drop (i + 1)) ++ segF) := by
  intro bs
  induction bs with
  | nil => intro i hi; exact absurd hi (Nat.not_lt_zero i)
  | cons b bs ih =>
      intro i hi
      cases i with
      | zero =>
          simp [offAux, bodyText]
      | succ j =>
          have hj : j < bs.length := by
            simp only [List.length_cons] at hi; omega
          have hoff : offAux (b :: bs) (j + 1) =
              (blockText b).length + offAux bs j := by
            simp [offAux, List.take_succ_cons, blockText_length]
          rw [hoff, bodyText, List.append_assoc, List.drop_append]
          rw [ih j hj]
          simp

theorem mkInput_drop (bs : List FileBlock) (i : Nat) (hi : i < bs.length) :
    (mkInput bs).drop (22 + offAux bs i) =
      blockText bs[i] ++ (bodyText (bs.drop (i + 1)) ++ segF) := by
  rw [mkInput]
  rw [show (22 : Nat) + offAux bs i = segH.length + offAux bs i from by
    simp [segH]]
  rw [List.drop_append]
  exact bodyText_drop bs i hi

theorem blockText_drop13 (b : FileBlock) (R : List Char) :
    (blockText b ++ R).drop (13 + b.path.toList.length) =
      segB.drop 3 ++ (b.content ++ (segC ++ (b.orig.toList ++ (segD ++ R)))) := by
  have hsplit : blockText b ++ R =
      (segA ++ (b.path.toList ++ segB.take 3)) ++
        (segB.drop 3 ++ (b.content ++ (segC ++ (b.orig.toList ++ (segD ++ R))))) := by
    simp [blockText, segB]
  rw [hsplit]
  rw [show 13 + b.path.toList.length =
      (segA ++ (b.path.toList ++ segB.take 3)).length from by
    simp [segA, segB]; omega]
  rw [List.drop_left]

theorem blockText_drop25 (b : FileBlock) (R : List Char) :
    (blockText b ++ R).drop (25 + b.path.toList.length) =
      b.content ++ (segC ++ (b.orig.toList ++ (segD ++ R))) := by
  have hsplit : blockText b ++ R =
      (segA ++ (b.path.toList ++ segB)) ++
        (b.content ++ (segC ++ (b.orig.toList ++ (segD ++ R)))) := by
    simp [blockText]
  rw [hsplit]
  rw [show 25 + b.path.toList.length =
      (segA ++ (b.path.toList ++ segB)).length from by
    simp [segA, segB]; omega]
  rw [List.drop_left]

theorem matchStart_at (bs : List FileBlock) (i : Nat) (hi : i < bs.length) :
    matchContentStart ((mkInput bs).drop
        (22 + offAux bs i + 13 + bs[i].path.toList.length)) = some 12 := by
  rw [show 22 + offAux bs i + 13 + bs[i].path.toList.length =
      (22 + offAux bs i) + (13 + bs[i].path.toList.length) from by omega]
  rw [← List.drop_drop]
  rw [mkInput_drop bs i hi]
  rw [blockText_drop13]
  exact scanS_matchB _

theorem slice_at (bs : List FileBlock) (i : Nat) (hi : i < bs.length) :
    sliceStr (mkInput bs) (22 + offAux bs i + 25 + bs[i].path.toList.length)
        (22 + offAux bs i + 25 + bs[i].path.toList.length +
          bs[i].content.length) =
      bs[i].content := by
  rw [sliceStr, List.drop_take]
  rw [show 22 + offAux bs i + 25 + bs[i].path.toList.length +
        bs[i].content.length -
      (22 + offAux bs i + 25 + bs[i].path.toList.length) =
      bs[i].content.length from by omega]
  rw [show 22 + offAux bs i + 25 + bs[i].path.toList.length =
      (22 + offAux bs i) + (25 + bs[i].path.toList.length) from by omega]
  rw [← List.drop_drop]
  rw [mkInput_drop bs i hi]
  rw [blockText_drop25]
  exact List.take_left' rfl

theorem filterMap_eq_map_of_some {α β : Type} (l : List α)
    (F : α → Option β) (G : α → β) (h : ∀ x ∈ l, F x = some (G x)) :
    l.filterMap F = l.map G := by
  induction l with
  | nil => rfl
  | cons a l ih =>
      simp only [List.filterMap_cons, h a (List.mem_cons_self _ _),
        List.map_cons]
      rw [ih (fun x hx => h x (List.mem_cons_of_mem _ hx))]


/-- C3: for every well-formed response text of `N` file blocks (backtick
delimited contents, arbitrary embedded quotes, backticks and escapes, as
long as the three key literals do not occur inside a content),
`parse_malformed_json` recovers exactly the `N` `(path, content)` pairs in
order, with each content processed by the five unescaping replacements. -/
theorem parse_malformed_json_recovers_blocks (bs : List FileBlock)
    (h : ∀ b ∈ bs, goodBlock b = true) :
    parse_malformed_json (mkInput bs) =
      bs.map fun b => (b.path.toList, process_file_content b.content) := by
  simp only [parse_malformed_json]
  simp only [scanS_input bs h, scanE_input bs h, scanP_input bs h]
  rw [List.length_map]
  refine Eq.trans (filterMap_eq_map_of_some _ _ (fun i =>
    ((bs.map fun b => b.path.toList).getD i [],
      process_file_content (sliceStr (mkInput bs)
        ((startsList bs 22).getD i 0 +
          (matchContentStart
            ((mkInput bs).drop ((startsList bs 22).getD i 0))).getD 0)
        ((endsList bs 22).getD i 0)))) ?_) ?_
  · intro x hx
    rw [List.mem_range] at hx
    have h2 : x < (startsList bs 22).length := by
      rw [startsList_length]; exact hx
    have h3 : x < (endsList bs 22).length := by
      rw [endsList_length]; exact hx
    rw [if_pos ⟨h2, h3⟩]
  · refine List.ext_getElem (by simp) ?_
    intro i u v
    have hi : i < bs.length := by
      simp only [List.length_map] at v; exact v
    have hu2 : i < (List.range bs.length).length := by
      simp [hi]
    simp only [List.getElem_map, List.getElem_range]
    rw [startsList_getD bs 22 i hi, endsList_getD bs 22 i hi]
    rw [matchStart_at bs i hi]
    rw [show (bs.map fun b => b.path.toList).getD i [] =
        bs[i].path.toList from by
      rw [List.getD_eq_getElem _ _ (by simp [hi] :
        i < (bs.map fun b => b.path.toList).length)]
      rw [List.getElem_map]]
    rw [show (some 12).getD 0 = 12 from rfl]
    rw [show 22 + offAux bs i + 13 + bs[i].path.toList.length + 12 =
      22 + offAux bs i + 25 + bs[i].path.toList.length from by omega]
    rw [slice_at bs i hi]


/-- Two concrete blocks with embedded quotes, backticks and escape
sequences in their contents. -/
def blocksW3 : List FileBlock :=
  [⟨"src/app.py",
    ['p', 'r', 'i', 'n', 't', '(', '"', 'h', 'i', '"', ')', '\\', 'n',
     ' ', '`', 'x', '`', ' ', '\\', '\\'], "app.py"⟩,
   ⟨"src/util.py", ['a', '\\', '\x27', 'b', '\\', '"', 'c'], "util.py"⟩]

theorem parse_malformed_json_recovers_blocks_witness :
    (∀ b ∈ blocksW3, goodBlock b = true) ∧
      parse_malformed_json (mkInput blocksW3) =
        blocksW3.map fun b => (b.path.toList, process_file_content b.content) :=
  ⟨by decide, parse_malformed_json_recovers_blocks blocksW3 (by decide)⟩


end MicroTranslator
